import Mathlib

/-!
Shallow embedding of the paged B+-tree storage engine of `mkdb`
(`src/storage/page.go`) and proofs of its specification's claims.

Modelling conventions:
* Go machine integers (`uint16`/`uint32`/`uint64`) are modelled as `Nat`;
  where a Go conversion can wrap (the `uint16(...)` cast computing
  `free_size` in the encoders) the wrap is made explicit with `% 65536`
  on `Int` (two's-complement cast for possibly negative values).
* Byte buffers are `List Nat` (each entry one byte).
* Go methods that mutate their receiver become functions from the node
  to the updated node; methods that can return an error also return an
  `Option DbError` alongside the post-state, so that "the node is
  unchanged on error" is an actual statement about the result.
* A Go `panic` (out-of-range index, page-size mismatch) is modelled by
  the fallible functions returning `none`.
-/

namespace Mkdb

/-- Constants of `page.go` (lines 19-63). -/
def pageSize : Nat := 4096

def internalNodeHeaderSize : Nat := 1 + 8 + 8 + 8 + 4 + 2

def leafNodeHeaderSize : Nat := 1 + 8 + 8 + 1 + 1 + 8 + 8 + 4 + 2

def offsetElemSize : Nat := 2

def internalNodeCellSize : Nat := 4 + 8

def maxValueSize : Nat := 400

def leafNodeCellSize : Nat := 4 + 1 + 4 + maxValueSize

def maxInternalNodeCells : Nat :=
  (pageSize - internalNodeHeaderSize) / (offsetElemSize + internalNodeCellSize)

def maxLeafNodeCells : Nat :=
  (pageSize - leafNodeHeaderSize) / (offsetElemSize + leafNodeCellSize)

/-- Error kinds surfaced by the storage layer (`ErrRowTooLarge`, the
"unable to find record" error of `updateCell`). -/
inductive DbError where
  | rowTooLarge
  | recordNotFound
deriving DecidableEq

/-- `checkRowSizeLimit` (page.go:73-78). -/
def checkRowSizeLimit (value : List Nat) : Option DbError :=
  if value.length > maxValueSize then some .rowTooLarge else none

/-! ## Little-endian byte serialization

`binary.Write`/`binary.Read` with `binary.LittleEndian` on fixed-width
integers write/read the value little-endian, one byte at a time. -/

/-- The `k`-byte little-endian encoding of `x` (low byte first). -/
def natToLE : Nat → Nat → List Nat
  | 0, _ => []
  | k + 1, x => x % 256 :: natToLE k (x / 256)

/-- Read a little-endian byte list back as a number. -/
def leToNat : List Nat → Nat
  | [] => 0
  | b :: bs => b + 256 * leToNat bs

/-- Split off the first `k` bytes of a buffer; `none` if the buffer is
too short (a short `binary.Read` errors in Go). -/
def readBytes (k : Nat) (l : List Nat) : Option (List Nat × List Nat) :=
  if k ≤ l.length then some (l.take k, l.drop k) else none

/-- Read a `k`-byte little-endian integer from the front of a buffer. -/
def readLE (k : Nat) (l : List Nat) : Option (Nat × List Nat) :=
  match readBytes k l with
  | some (a, r) => some (leToNat a, r)
  | none => none

/-- A Go `bool` is written as one byte, `1` for true and `0` for false. -/
def boolByte (b : Bool) : List Nat := [if b then 1 else 0]

theorem natToLE_length (k x : Nat) : (natToLE k x).length = k := by
  induction k generalizing x with
  | zero => rfl
  | succ k ih => simp [natToLE, ih]

theorem leToNat_natToLE {k x : Nat} (h : x < 256 ^ k) :
    leToNat (natToLE k x) = x := by
  induction k generalizing x with
  | zero => simp [pow_zero] at h; simp [natToLE, leToNat, h]
  | succ k ih =>
    have hdiv : x / 256 < 256 ^ k := by
      apply Nat.div_lt_of_lt_mul
      rw [pow_succ] at h
      omega
    simp [natToLE, leToNat, ih hdiv]
    omega

theorem readBytes_exact {a : List Nat} (k : Nat) (r : List Nat)
    (h : a.length = k) : readBytes k (a ++ r) = some (a, r) := by
  subst h
  simp [readBytes, List.take_left, List.drop_left]

theorem readLE_round {k x : Nat} (r : List Nat) (h : x < 256 ^ k) :
    readLE k (natToLE k x ++ r) = some (x, r) := by
  rw [readLE, readBytes_exact k r (natToLE_length k x)]
  simp [leToNat_natToLE h]

theorem readLE_boolByte (b : Bool) (r : List Nat) :
    readLE 1 (boolByte b ++ r) = some (if b then 1 else 0, r) := by
  cases b <;> simp [boolByte, readLE, readBytes, leToNat]

/-! ## Node data model (page.go:80-141, 334-341)

The Go `internalNodeCell.pg` field does not exist; the leaf cell's
`pg btreeNode` field is a transient in-memory pointer used by the tree
walker (outside this core) and is never serialized, so it is omitted.
The embedded common fields of Go's `node` struct are inlined. -/

structure internalNodeCell where
  key : Nat
  fileOffset : Nat
deriving DecidableEq, Inhabited

structure leafNodeCell where
  key : Nat
  valueSize : Nat
  valueBytes : List Nat
  deleted : Bool
deriving DecidableEq, Inhabited

structure internalNode where
  fileOffset : Nat
  lastLSN : Nat
  dirty : Bool
  freeSize : Nat
  offsets : List Nat
  cells : List internalNodeCell
  rightOffset : Nat
deriving DecidableEq, Inhabited

structure leafNode where
  fileOffset : Nat
  lastLSN : Nat
  dirty : Bool
  freeSize : Nat
  offsets : List Nat
  cells : List leafNodeCell
  hasLSib : Bool
  hasRSib : Bool
  lSibFileOffset : Nat
  rSibFileOffset : Nat
deriving DecidableEq, Inhabited

/-- `internalNode.setRightMostKey` (page.go:143-145). -/
def internalNode.setRightMostKey (n : internalNode) (fileOffset : Nat) : internalNode :=
  { n with rightOffset := fileOffset }

/-- `internalNode.cellKey` (page.go:147-149); the out-of-range panic is
modelled by the default cell. -/
def internalNode.cellKey (n : internalNode) (offset : Nat) : Nat :=
  (n.cells.getD offset default).key

/-- `leafNode.cellKey` (page.go:343-345). -/
def leafNode.cellKey (n : leafNode) (offset : Nat) : Nat :=
  (n.cells.getD offset default).key

/-- `internalNode.appendCell` (page.go:151-159): pushes `len(offsets)`
onto the slot array and the new cell onto `cells`. -/
def internalNode.appendCell (n : internalNode) (key fileOffset : Nat) : internalNode :=
  { n with offsets := n.offsets ++ [n.offsets.length],
           cells := n.cells ++ [⟨key, fileOffset⟩] }

/-- `leafNode.appendCell` (page.go:347-356). -/
def leafNode.appendCell (n : leafNode) (key : Nat) (value : List Nat) : leafNode :=
  { n with offsets := n.offsets ++ [n.offsets.length],
           cells := n.cells ++ [⟨key, value.length, value, false⟩] }

/-- `internalNode.insertCell` (page.go:161-171).
`append(n.offsets[:offset+1], n.offsets[offset:]...)` has memmove
semantics, yielding `take (offset+1) ++ drop offset`; slot `offset` is
then overwritten with the index of the new cell, and the final
statement swaps the `fileOffset` fields of the new cell and of the cell
now referenced by slot `offset+1`. -/
def internalNode.insertCell (n : internalNode) (offset key fileOffset : Nat) :
    internalNode :=
  let offsets1 := (n.offsets.take (offset + 1) ++ n.offsets.drop offset).set
    offset n.cells.length
  let cells1 := n.cells ++ [⟨key, fileOffset⟩]
  let i := offsets1.getD offset 0
  let j := offsets1.getD (offset + 1) 0
  let ci := cells1.getD i default
  let cj := cells1.getD j default
  { n with offsets := offsets1,
           cells := (cells1.set i { ci with fileOffset := cj.fileOffset }).set
             j { cj with fileOffset := ci.fileOffset } }

/-- The binary-search loop shared verbatim by
`internalNode.findCellOffsetByKey` (page.go:176-194) and
`leafNode.findCellOffsetByKey` (page.go:392-410).

Go iterates with `int` bounds `low`/`high`; here `hi` stands for
`high + 1` (so the Go entry condition `low <= high` is `low < hi` and
`high = len(offsets) - 1` is `hi = len(offsets)`, avoiding a negative
bound on the empty slot array), and the loop is driven by explicit fuel
that dominates the interval width. For `low < hi` the probe
`mid = low + (high-low)/2` is `low + (hi - 1 - low) / 2`. -/
def bsearchGo (keyAt : Nat → Nat) (key : Nat) : Nat → Nat → Nat → Nat × Bool
  | 0, low, _ => (low, false)
  | fuel + 1, low, hi =>
    if low < hi then
      let mid := low + (hi - 1 - low) / 2
      let midVal := keyAt mid
      if midVal = key then (mid, true)
      else if midVal < key then bsearchGo keyAt key fuel (mid + 1) hi
      else bsearchGo keyAt key fuel low mid
    else (low, false)

/-- `internalNode.findCellOffsetByKey` (page.go:176-194). -/
def internalNode.findCellOffsetByKey (n : internalNode) (key : Nat) : Nat × Bool :=
  bsearchGo (fun i => n.cellKey (n.offsets.getD i 0)) key
    (n.offsets.length + 1) 0 n.offsets.length

/-- `leafNode.findCellOffsetByKey` (page.go:392-410). -/
def leafNode.findCellOffsetByKey (n : leafNode) (key : Nat) : Nat × Bool :=
  bsearchGo (fun i => n.cellKey (n.offsets.getD i 0)) key
    (n.offsets.length + 1) 0 n.offsets.length

/-- `internalNode.isFull` (page.go:196-198). -/
def internalNode.isFull (n : internalNode) : Bool :=
  n.offsets.length ≥ maxInternalNodeCells

/-- `leafNode.isFull` (page.go:412-414). -/
def leafNode.isFull (n : leafNode) : Bool :=
  n.offsets.length ≥ maxLeafNodeCells

/-- `internalNode.split` (page.go:200-218): returns the old page, the
new page and the promoted key. Note the source reads `p.cells[mid]`
directly (not `p.cells[p.offsets[mid]]`). -/
def internalNode.split (p newPg : internalNode) : internalNode × internalNode × Nat :=
  let mid := p.offsets.length / 2
  let moved := (p.offsets.drop (mid + 1)).map (fun o => p.cells.getD o default)
  let newPg1 := moved.foldl (fun acc c => acc.appendCell c.key c.fileOffset) newPg
  let newPg2 := newPg1.setRightMostKey p.rightOffset
  let key := (p.cells.getD mid default).key
  let p1 := (p.setRightMostKey (p.cells.getD mid default).fileOffset)
  let p2 := { p1 with offsets := p1.offsets.take mid }
  (p2, newPg2, key)

/-- `leafNode.split` (page.go:416-431): moves slots `[mid, n)` to the
new page, truncates the old slot array, and returns the new page's
first key (`none` models the panic when the new page ends up empty). -/
def leafNode.split (p newPg : leafNode) : Option (leafNode × leafNode × Nat) :=
  let mid := p.offsets.length / 2
  let moved := (p.offsets.drop mid).map (fun o => p.cells.getD o default)
  let newPg1 := moved.foldl (fun acc c => acc.appendCell c.key c.valueBytes) newPg
  let p1 := { p with offsets := p.offsets.take mid }
  match newPg1.offsets with
  | [] => none
  | o :: _ => some (p1, newPg1, (newPg1.cells.getD o default).key)

/-- `leafNode.updateCell` (page.go:358-369): size check first, then a
search by key; on success the source writes through `n.cells[offset]`
where `offset` is the slot index returned by the search. The result
pairs the post-state with the error, so the error branches demonstrably
leave the node unchanged. -/
def leafNode.updateCell (n : leafNode) (key : Nat) (value : List Nat) :
    leafNode × Option DbError :=
  match checkRowSizeLimit value with
  | some e => (n, some e)
  | none =>
    match n.findCellOffsetByKey key with
    | (_, false) => (n, some .recordNotFound)
    | (offset, true) =>
      let c := n.cells.getD offset default
      let cells1 := n.cells.set offset
        { c with valueBytes := value, valueSize := value.length }
      ({ n with cells := cells1 }, none)

/-- `leafNode.insertCell` (page.go:371-387): size check first; slot
`offset = len(offsets)` appends, otherwise the slot array is shifted as
in `internalNode.insertCell`; the new cell is pushed onto `cells`. -/
def leafNode.insertCell (n : leafNode) (offset key : Nat) (value : List Nat) :
    leafNode × Option DbError :=
  match checkRowSizeLimit value with
  | some e => (n, some e)
  | none =>
    let offsets1 :=
      if n.offsets.length = offset then n.offsets ++ [n.cells.length]
      else (n.offsets.take (offset + 1) ++ n.offsets.drop offset).set
        offset n.cells.length
    ({ n with offsets := offsets1,
              cells := n.cells ++ [⟨key, value.length, value, false⟩] }, none)

/-! ## Page codec (page.go:224-332, 433-573) -/

/-- The slot array written as consecutive `uint16` values. -/
def encU16s : List Nat → List Nat
  | [] => []
  | o :: os => natToLE 2 o ++ encU16s os

/-- One internal footer cell: `key(u32) | file_offset(u64)`. -/
def encInternalCell (c : internalNodeCell) : List Nat :=
  natToLE 4 c.key ++ natToLE 8 c.fileOffset

/-- The internal footer: cells in slot order (page.go:252-260). -/
def encInternalFooter (cells : List internalNodeCell) : List Nat → List Nat
  | [] => []
  | o :: os => encInternalCell (cells.getD o default) ++ encInternalFooter cells os

/-- One leaf footer cell:
`key(u32) | deleted(1) | value_size(u32) | value[value_size]`. -/
def encLeafCell (c : leafNodeCell) : List Nat :=
  natToLE 4 c.key ++ (boolByte c.deleted ++ (natToLE 4 c.valueSize ++ c.valueBytes))

/-- The leaf footer: cells in slot order (page.go:470-484). -/
def encLeafFooter (cells : List leafNodeCell) : List Nat → List Nat
  | [] => []
  | o :: os => encLeafCell (cells.getD o default) ++ encLeafFooter cells os

/-- Header bytes of `internalNode.encode` up to the slot array
(page.go:227-248), concatenated right-nested in write order. -/
def internalHeaderBytes (p : internalNode) : List Nat :=
  0 :: (natToLE 8 p.fileOffset ++ (natToLE 8 p.lastLSN ++ (natToLE 8 p.rightOffset ++
    (natToLE 4 p.offsets.length ++ encU16s p.offsets))))

/-- `internalNode.encode` (page.go:224-281). `free_size` is computed by
a Go `uint16(...)` cast of a possibly negative `int`, hence the
`% 65536` on `Int`; the final `buf.Len() != pageSize` panic and the
out-of-range cell reads `p.cells[p.offsets[i]]` are modelled as `none`. -/
def internalNode.encode (p : internalNode) : Option (List Nat) :=
  if p.offsets.all (fun o => o < p.cells.length) then
    let header := internalHeaderBytes p
    let footer := encInternalFooter p.cells p.offsets
    let freeSize := (((pageSize : Int) - header.length - footer.length - 2) % 65536).toNat
    let buf := header ++ (natToLE 2 freeSize ++ (List.replicate freeSize 0 ++ footer))
    if buf.length = pageSize then some buf else none
  else none

/-- Header bytes of `leafNode.encode` up to the slot array
(page.go:436-466). -/
def leafHeaderBytes (p : leafNode) : List Nat :=
  1 :: (natToLE 8 p.fileOffset ++ (natToLE 8 p.lastLSN ++ (boolByte p.hasLSib ++
    (boolByte p.hasRSib ++ (natToLE 8 p.lSibFileOffset ++ (natToLE 8 p.rSibFileOffset ++
      (natToLE 4 p.offsets.length ++ encU16s p.offsets)))))))

/-- `leafNode.encode` (page.go:433-505). -/
def leafNode.encode (p : leafNode) : Option (List Nat) :=
  if p.offsets.all (fun o => o < p.cells.length) then
    let header := leafHeaderBytes p
    let footer := encLeafFooter p.cells p.offsets
    let freeSize := (((pageSize : Int) - header.length - footer.length - 2) % 65536).toNat
    let buf := header ++ (natToLE 2 freeSize ++ (List.replicate freeSize 0 ++ footer))
    if buf.length = pageSize then some buf else none
  else none

/-- Read `count` consecutive `uint16` slot entries (page.go:305-311). -/
def readU16s : Nat → List Nat → Option (List Nat × List Nat)
  | 0, l => some ([], l)
  | count + 1, l => do
    let (v, r) ← readLE 2 l
    let (vs, r') ← readU16s count r
    pure (v :: vs, r')

/-- Read `count` internal footer cells in slot order (page.go:320-327). -/
def readInternalCells : Nat → List Nat → Option (List internalNodeCell × List Nat)
  | 0, l => some ([], l)
  | count + 1, l => do
    let (k, r1) ← readLE 4 l
    let (fo, r2) ← readLE 8 r1
    let (cs, r3) ← readInternalCells count r2
    pure (⟨k, fo⟩ :: cs, r3)

/-- Read `count` leaf footer cells in slot order (page.go:553-570).
The value is read back at its declared `value_size`. -/
def readLeafCells : Nat → List Nat → Option (List leafNodeCell × List Nat)
  | 0, l => some ([], l)
  | count + 1, l => do
    let (k, r1) ← readLE 4 l
    let (d, r2) ← readLE 1 r1
    let (vs, r3) ← readLE 4 r2
    let (vb, r4) ← readBytes vs r3
    let (cs, r5) ← readLeafCells count r4
    pure (⟨k, vs, vb, d ≠ 0⟩ :: cs, r5)

/-- The decoder's scatter loop `p.cells[p.offsets[i]] = cell`
(page.go:319-329, 552-570): cell `i` read from the footer is stored at
index `slots[i]` of a fresh array of length `cell_count`; an
out-of-range slot is the Go panic, modelled as `none`. -/
def scatter {α : Type} : List α → List Nat → List α → Option (List α)
  | acc, [], [] => some acc
  | acc, o :: os, c :: cs =>
    if o < acc.length then scatter (acc.set o c) os cs else none
  | _, _, _ => none

/-- `internalNode.decode` (page.go:283-332). -/
def internalNode.decode (buf : List Nat) : Option internalNode := do
  let (tag, r0) ← readLE 1 buf
  if tag = 0 then
    let (fo, r1) ← readLE 8 r0
    let (lsn, r2) ← readLE 8 r1
    let (ro, r3) ← readLE 8 r2
    let (cnt, r4) ← readLE 4 r3
    let (offs, r5) ← readU16s cnt r4
    let (fs, r6) ← readLE 2 r5
    let r7 := r6.drop fs
    let (inOrder, _) ← readInternalCells cnt r7
    let cells ← scatter (List.replicate cnt default) offs inOrder
    pure { fileOffset := fo, lastLSN := lsn, dirty := false, freeSize := fs,
           offsets := offs, cells := cells, rightOffset := ro }
  else none

/-- `leafNode.decode` (page.go:507-573). -/
def leafNode.decode (buf : List Nat) : Option leafNode := do
  let (tag, r0) ← readLE 1 buf
  if tag = 1 then
    let (fo, r1) ← readLE 8 r0
    let (lsn, r2) ← readLE 8 r1
    let (lsib, r3) ← readLE 1 r2
    let (rsib, r4) ← readLE 1 r3
    let (lso, r5) ← readLE 8 r4
    let (rso, r6) ← readLE 8 r5
    let (cnt, r7) ← readLE 4 r6
    let (offs, r8) ← readU16s cnt r7
    let (fs, r9) ← readLE 2 r8
    let r10 := r9.drop fs
    let (inOrder, _) ← readLeafCells cnt r10
    let cells ← scatter (List.replicate cnt default) offs inOrder
    pure { fileOffset := fo, lastLSN := lsn, dirty := false, freeSize := fs,
           offsets := offs, cells := cells, hasLSib := lsib ≠ 0, hasRSib := rsib ≠ 0,
           lSibFileOffset := lso, rSibFileOffset := rso }
  else none

/-! ## Persistent header (page.go:775-819) -/

/-- The header fields of `fileStore` persisted at file offset 0. -/
structure fileStoreHeader where
  lastKey : Nat
  pageTableRoot : Nat
  nextFreeOffset : Nat
  nextLSN : Nat
deriving DecidableEq

/-- `fileStore.save` (page.go:775-798): the 28 bytes written at file
offset 0, in write order, little-endian. -/
def fileStore.save (h : fileStoreHeader) : List Nat :=
  natToLE 4 h.lastKey ++ (natToLE 8 h.pageTableRoot ++
    (natToLE 8 h.nextFreeOffset ++ natToLE 8 h.nextLSN))

/-- `fileStore.open` (page.go:800-819): reads the four header fields
back from the front of the file. -/
def fileStore.openHeader (l : List Nat) : Option fileStoreHeader := do
  let (lk, r1) ← readLE 4 l
  let (ptr, r2) ← readLE 8 r1
  let (nfo, r3) ← readLE 8 r2
  let (lsn, _) ← readLE 8 r3
  pure ⟨lk, ptr, nfo, lsn⟩

/-! ## Sizes of encoded fragments -/

theorem encU16s_length (os : List Nat) : (encU16s os).length = 2 * os.length := by
  induction os with
  | nil => rfl
  | cons o os ih => simp [encU16s, natToLE_length, ih]; omega

theorem encInternalFooter_length (cells : List internalNodeCell) (os : List Nat) :
    (encInternalFooter cells os).length = 12 * os.length := by
  induction os with
  | nil => rfl
  | cons o os ih =>
    simp [encInternalFooter, encInternalCell, natToLE_length, ih]; omega

theorem encLeafCell_length (c : leafNodeCell) :
    (encLeafCell c).length = 9 + c.valueBytes.length := by
  simp [encLeafCell, natToLE_length, boolByte]; omega

theorem encLeafFooter_length_le (cells : List leafNodeCell) (os : List Nat)
    (hv : ∀ o ∈ os, (cells.getD o default).valueBytes.length ≤ maxValueSize) :
    (encLeafFooter cells os).length ≤ 409 * os.length := by
  induction os with
  | nil => simp [encLeafFooter]
  | cons o os ih =>
    have h1 := hv o (by simp)
    have h2 := ih (fun o ho => hv o (by simp [ho]))
    simp only [encLeafFooter, List.length_append, List.length_cons, encLeafCell_length]
    simp only [maxValueSize] at h1
    omega

theorem internalHeaderBytes_length (p : internalNode) :
    (internalHeaderBytes p).length = 29 + 2 * p.offsets.length := by
  simp [internalHeaderBytes, natToLE_length, encU16s_length]; omega

theorem leafHeaderBytes_length (p : leafNode) :
    (leafHeaderBytes p).length = 39 + 2 * p.offsets.length := by
  simp [leafHeaderBytes, natToLE_length, encU16s_length, boolByte]; omega

/-- The nonnegative free-space value of an encoded internal page. -/
def internalFree (p : internalNode) : Nat := 4065 - 14 * p.offsets.length

/-- The nonnegative free-space value of an encoded leaf page. -/
def leafFree (p : leafNode) : Nat :=
  pageSize - ((leafHeaderBytes p).length + (encLeafFooter p.cells p.offsets).length + 2)

theorem internal_encode_eq (p : internalNode)
    (hb : ∀ o ∈ p.offsets, o < p.cells.length)
    (hn : p.offsets.length ≤ maxInternalNodeCells) :
    internalNode.encode p =
      some (internalHeaderBytes p ++ (natToLE 2 (internalFree p) ++
        (List.replicate (internalFree p) 0 ++ encInternalFooter p.cells p.offsets))) := by
  have hn' : p.offsets.length ≤ 290 := hn
  have hall : p.offsets.all (fun o => o < p.cells.length) = true := by
    simp only [List.all_eq_true, decide_eq_true_eq]
    exact hb
  have hslack : ((pageSize : Int) - (internalHeaderBytes p).length -
      (encInternalFooter p.cells p.offsets).length - 2) = (internalFree p : Int) := by
    rw [internalHeaderBytes_length, encInternalFooter_length]
    simp only [internalFree, pageSize]
    omega
  have hmod : ((internalFree p : Int) % 65536) = (internalFree p : Int) :=
    Int.emod_eq_of_lt (by positivity) (by simp only [internalFree]; omega)
  rw [internalNode.encode]
  simp only [hall, if_true, hslack, hmod, Int.toNat_natCast]
  have hlen : (internalHeaderBytes p ++ (natToLE 2 (internalFree p) ++
      (List.replicate (internalFree p) 0 ++ encInternalFooter p.cells p.offsets))).length =
      pageSize := by
    simp only [List.length_append, internalHeaderBytes_length, natToLE_length,
      List.length_replicate, encInternalFooter_length, internalFree, pageSize]
    omega
  simp [hlen]

theorem leaf_footer_fits (p : leafNode)
    (hv : ∀ o ∈ p.offsets,
      (p.cells.getD o default).valueBytes.length ≤ maxValueSize)
    (hn : p.offsets.length ≤ maxLeafNodeCells) :
    (leafHeaderBytes p).length + (encLeafFooter p.cells p.offsets).length + 2 ≤ 3740 := by
  have hn' : p.offsets.length ≤ 9 := hn
  have hf := encLeafFooter_length_le p.cells p.offsets hv
  rw [leafHeaderBytes_length]
  omega

theorem leaf_encode_eq (p : leafNode)
    (hb : ∀ o ∈ p.offsets, o < p.cells.length)
    (hv : ∀ o ∈ p.offsets,
      (p.cells.getD o default).valueBytes.length ≤ maxValueSize)
    (hn : p.offsets.length ≤ maxLeafNodeCells) :
    leafNode.encode p =
      some (leafHeaderBytes p ++ (natToLE 2 (leafFree p) ++
        (List.replicate (leafFree p) 0 ++ encLeafFooter p.cells p.offsets))) := by
  have hall : p.offsets.all (fun o => o < p.cells.length) = true := by
    simp only [List.all_eq_true, decide_eq_true_eq]
    exact hb
  have hfit := leaf_footer_fits p hv hn
  have hslack : ((pageSize : Int) - (leafHeaderBytes p).length -
      (encLeafFooter p.cells p.offsets).length - 2) = (leafFree p : Int) := by
    simp only [leafFree, pageSize] at *
    omega
  have hfree : leafFree p ≤ pageSize := by
    simp only [leafFree]; omega
  have hmod : ((leafFree p : Int) % 65536) = (leafFree p : Int) := by
    exact Int.emod_eq_of_lt (by positivity)
      (by simp only [pageSize] at hfree; omega)
  rw [leafNode.encode]
  simp only [hall, if_true, hslack, hmod, Int.toNat_natCast]
  have hlen : (leafHeaderBytes p ++ (natToLE 2 (leafFree p) ++
      (List.replicate (leafFree p) 0 ++ encLeafFooter p.cells p.offsets))).length =
      pageSize := by
    simp only [List.length_append, natToLE_length, List.length_replicate, leafFree]
    simp only [pageSize] at *
    omega
  simp [hlen]

/-- C3: for every valid node (cell count within the per-type maximum,
offsets indexing real cells, leaf values at most 400 bytes with
`value_size = len(value)`), `encode` succeeds — the `panic` branch for
an output length other than 4096 is unreachable — and the buffer is
exactly 4096 bytes. -/
theorem C3_page_size_totality (p : internalNode) (l : leafNode)
    (hbp : ∀ o ∈ p.offsets, o < p.cells.length)
    (hnp : p.offsets.length ≤ maxInternalNodeCells)
    (hbl : ∀ o ∈ l.offsets, o < l.cells.length)
    (hvl : ∀ o ∈ l.offsets,
      (l.cells.getD o default).valueSize = (l.cells.getD o default).valueBytes.length ∧
      (l.cells.getD o default).valueBytes.length ≤ maxValueSize)
    (hnl : l.offsets.length ≤ maxLeafNodeCells) :
    (∃ bp, internalNode.encode p = some bp ∧ bp.length = pageSize) ∧
    (∃ bl, leafNode.encode l = some bl ∧ bl.length = pageSize) := by
  constructor
  · refine ⟨_, internal_encode_eq p hbp hnp, ?_⟩
    simp only [List.length_append, internalHeaderBytes_length, natToLE_length,
      List.length_replicate, encInternalFooter_length, internalFree, pageSize]
    have hn' : p.offsets.length ≤ 290 := hnp
    omega
  · refine ⟨_, leaf_encode_eq l hbl (fun o ho => (hvl o ho).2) hnl, ?_⟩
    have hfit := leaf_footer_fits l (fun o ho => (hvl o ho).2) hnl
    simp only [List.length_append, natToLE_length, List.length_replicate, leafFree]
    simp only [pageSize] at *
    omega

/-- Witness for C3 at a one-cell internal node and a one-cell leaf. -/
theorem C3_page_size_totality_witness :
    (∃ bp, internalNode.encode
        ⟨4096, 1, false, 0, [0], [⟨5, 8192⟩], 12288⟩ = some bp ∧
      bp.length = pageSize) ∧
    (∃ bl, leafNode.encode
        ⟨4096, 1, false, 0, [0], [⟨5, 2, [10, 20], false⟩], false, false, 0, 0⟩ =
        some bl ∧ bl.length = pageSize) := by
  refine C3_page_size_totality _ _ ?_ ?_ ?_ ?_ ?_ <;> decide

/-- C9: `save` writes exactly the 28-byte little-endian header
`last_key(u32) | page_table_root(u64) | next_free_offset(u64) |
next_lsn(u64)`, and `open` recovers the four saved fields exactly. -/
theorem C9_header_roundtrip (h : fileStoreHeader)
    (h1 : h.lastKey < 2 ^ 32) (h2 : h.pageTableRoot < 2 ^ 64)
    (h3 : h.nextFreeOffset < 2 ^ 64) (h4 : h.nextLSN < 2 ^ 64) :
    (fileStore.save h).length = 28 ∧
    fileStore.openHeader (fileStore.save h) = some h := by
  have h1' : h.lastKey < 256 ^ 4 := lt_of_lt_of_le h1 (by norm_num)
  have h2' : h.pageTableRoot < 256 ^ 8 := lt_of_lt_of_le h2 (by norm_num)
  have h3' : h.nextFreeOffset < 256 ^ 8 := lt_of_lt_of_le h3 (by norm_num)
  have h4' : h.nextLSN < 256 ^ 8 := lt_of_lt_of_le h4 (by norm_num)
  have hlast : readLE 8 (natToLE 8 h.nextLSN) = some (h.nextLSN, []) := by
    have := readLE_round (x := h.nextLSN) [] h4'
    simpa using this
  constructor
  · simp [fileStore.save, natToLE_length]
  · rw [fileStore.openHeader, fileStore.save]
    rw [readLE_round _ h1']
    simp only [Option.bind_eq_bind, Option.some_bind]
    rw [readLE_round _ h2']
    simp only [Option.some_bind]
    rw [readLE_round _ h3']
    simp only [Option.some_bind]
    rw [hlast]
    simp

/-- Witness for C9 at a concrete header. -/
theorem C9_header_roundtrip_witness :
    (fileStore.save ⟨7, 4096, 12288, 42⟩).length = 28 ∧
    fileStore.openHeader (fileStore.save ⟨7, 4096, 12288, 42⟩) =
      some ⟨7, 4096, 12288, 42⟩ :=
  C9_header_roundtrip ⟨7, 4096, 12288, 42⟩ (by norm_num) (by norm_num)
    (by norm_num) (by norm_num)

/-! ## Decode-side round-trip lemmas -/

theorem readLE_one_cons (b : Nat) (r : List Nat) : readLE 1 (b :: r) = some (b, r) := by
  simp [readLE, readBytes, leToNat, List.take_succ_cons, List.drop_succ_cons]

theorem readU16s_round (os : List Nat) (r : List Nat) (h : ∀ o ∈ os, o < 65536) :
    readU16s os.length (encU16s os ++ r) = some (os, r) := by
  induction os with
  | nil => simp [readU16s, encU16s]
  | cons o os ih =>
    have ho : o < 256 ^ 2 := by
      have := h o (by simp)
      norm_num
      omega
    simp only [List.length_cons, readU16s, encU16s, List.append_assoc]
    rw [readLE_round _ ho]
    simp only [Option.bind_eq_bind, Option.some_bind]
    rw [ih (fun o ho => h o (by simp [ho]))]
    rfl

theorem readInternalCells_round (cells : List internalNodeCell) (os : List Nat)
    (r : List Nat)
    (h : ∀ o ∈ os, (cells.getD o default).key < 2 ^ 32 ∧
      (cells.getD o default).fileOffset < 2 ^ 64) :
    readInternalCells os.length (encInternalFooter cells os ++ r) =
      some (os.map (fun o => cells.getD o default), r) := by
  induction os with
  | nil => simp [readInternalCells, encInternalFooter]
  | cons o os ih =>
    have hk : (cells.getD o default).key < 256 ^ 4 :=
      lt_of_lt_of_le (h o (by simp)).1 (by norm_num)
    have hf : (cells.getD o default).fileOffset < 256 ^ 8 :=
      lt_of_lt_of_le (h o (by simp)).2 (by norm_num)
    simp only [List.length_cons, readInternalCells, encInternalFooter,
      encInternalCell, List.append_assoc]
    rw [readLE_round _ hk]
    simp only [Option.bind_eq_bind, Option.some_bind]
    rw [readLE_round _ hf]
    simp only [Option.some_bind]
    rw [ih (fun o ho => h o (by simp [ho]))]
    rfl

theorem readLeafCells_round (cells : List leafNodeCell) (os : List Nat)
    (r : List Nat)
    (h : ∀ o ∈ os, (cells.getD o default).key < 2 ^ 32 ∧
      (cells.getD o default).valueSize = (cells.getD o default).valueBytes.length ∧
      (cells.getD o default).valueSize < 2 ^ 32) :
    readLeafCells os.length (encLeafFooter cells os ++ r) =
      some (os.map (fun o => cells.getD o default), r) := by
  induction os with
  | nil => simp [readLeafCells, encLeafFooter]
  | cons o os ih =>
    have hk : (cells.getD o default).key < 256 ^ 4 :=
      lt_of_lt_of_le (h o (by simp)).1 (by norm_num)
    have hvs : (cells.getD o default).valueSize < 256 ^ 4 :=
      lt_of_lt_of_le (h o (by simp)).2.2 (by norm_num)
    have hvl : (cells.getD o default).valueSize =
        (cells.getD o default).valueBytes.length := (h o (by simp)).2.1
    simp only [List.length_cons, readLeafCells, encLeafFooter, encLeafCell,
      List.append_assoc]
    rw [readLE_round _ hk]
    simp only [Option.bind_eq_bind, Option.some_bind]
    rw [readLE_boolByte]
    simp only [Option.some_bind]
    rw [readLE_round _ hvs]
    simp only [Option.some_bind]
    rw [readBytes_exact _ _ hvl.symm]
    simp only [Option.some_bind]
    rw [ih (fun o ho => h o (by simp [ho]))]
    simp only [Option.some_bind]
    cases hdel : (cells.getD o default).deleted <;>
      (simp [hdel]; rw [← hdel, List.getD_eq_getElem?_getD])

theorem scatter_length {α : Type} {acc out : List α} {os : List Nat} {cs : List α}
    (hs : scatter acc os cs = some out) : out.length = acc.length := by
  induction os generalizing acc cs with
  | nil =>
    cases cs with
    | nil => simp [scatter] at hs; simp [hs]
    | cons c cs => simp [scatter] at hs
  | cons o os ih =>
    cases cs with
    | nil => simp [scatter] at hs
    | cons c cs =>
      simp only [scatter] at hs
      split at hs
      · have := ih hs
        simpa using this
      · exact absurd hs (by simp)

theorem scatter_getD_not_mem {α : Type} [Inhabited α] {acc out : List α}
    {os : List Nat} {cs : List α} (hs : scatter acc os cs = some out)
    {i : Nat} (hi : i ∉ os) : out.getD i default = acc.getD i default := by
  induction os generalizing acc cs with
  | nil =>
    cases cs with
    | nil => simp [scatter] at hs; simp [hs]
    | cons c cs => simp [scatter] at hs
  | cons o os ih =>
    cases cs with
    | nil => simp [scatter] at hs
    | cons c cs =>
      simp only [scatter] at hs
      split at hs
      · have hne : i ≠ o := fun he => hi (by simp [he])
        have hrest : i ∉ os := fun he => hi (by simp [he])
        rw [ih hs hrest]
        rcases Nat.lt_or_ge i acc.length with hlt | hge
        · rw [List.getD_eq_getElem _ _ (by simpa using hlt),
            List.getD_eq_getElem _ _ hlt]
          simp [List.getElem_set, hne.symm]
        · rw [List.getD_eq_default _ _ (by simpa using hge),
            List.getD_eq_default _ _ hge]
      · exact absurd hs (by simp)

theorem scatter_getD {α : Type} [Inhabited α] {acc out : List α}
    {os : List Nat} {cs : List α} (hnd : os.Nodup)
    (hs : scatter acc os cs = some out) :
    ∀ j, j < os.length → out.getD (os.getD j 0) default = cs.getD j default := by
  induction os generalizing acc cs with
  | nil => intro j hj; simp at hj
  | cons o os ih =>
    cases cs with
    | nil => simp [scatter] at hs
    | cons c cs =>
      simp only [scatter] at hs
      split at hs
      next hlt =>
        intro j hj
        cases j with
        | zero =>
          have hno : o ∉ os := (List.nodup_cons.mp hnd).1
          rw [List.getD_cons_zero, List.getD_cons_zero,
            scatter_getD_not_mem hs hno,
            List.getD_eq_getElem _ _ (by simpa using hlt)]
          simp [List.getElem_set]
        | succ j =>
          rw [List.getD_cons_succ, List.getD_cons_succ]
          exact ih (List.nodup_cons.mp hnd).2 hs j (by simpa using hj)
      next => exact absurd hs (by simp)

theorem scatter_some {α : Type} (acc : List α) (os : List Nat) (cs : List α)
    (hlen : os.length = cs.length) (hb : ∀ o ∈ os, o < acc.length) :
    ∃ out, scatter acc os cs = some out := by
  induction os generalizing acc cs with
  | nil =>
    cases cs with
    | nil => exact ⟨acc, rfl⟩
    | cons c cs => simp at hlen
  | cons o os ih =>
    cases cs with
    | nil => simp at hlen
    | cons c cs =>
      have ho : o < acc.length := hb o (by simp)
      obtain ⟨out, hout⟩ := ih (acc.set o c) cs (by simpa using hlen)
        (fun o' ho' => by simpa using hb o' (by simp [ho']))
      exact ⟨out, by simp only [scatter, if_pos ho]; exact hout⟩

/-- Strictly increasing keys along the slot array force the slot
indices to be pairwise distinct. -/
theorem nodup_of_slot_sorted {keyf : Nat → Nat} {os : List Nat}
    (h : List.Pairwise (fun a b => keyf a < keyf b) os) : os.Nodup :=
  h.imp (fun hlt he => absurd (he ▸ hlt) (lt_irrefl _))

set_option maxHeartbeats 1000000 in
/-- Round-trip for leaf nodes: decoding an encoded valid leaf restores
the header fields, the slot array, and every slot-referenced cell. -/
theorem leaf_decode_encode (p : leafNode)
    (hb : ∀ o ∈ p.offsets, o < p.cells.length)
    (hbn : ∀ o ∈ p.offsets, o < p.offsets.length)
    (hsort : List.Pairwise (fun a b =>
      (p.cells.getD a default).key < (p.cells.getD b default).key) p.offsets)
    (hv : ∀ o ∈ p.offsets,
      (p.cells.getD o default).valueSize = (p.cells.getD o default).valueBytes.length ∧
      (p.cells.getD o default).valueBytes.length ≤ maxValueSize ∧
      (p.cells.getD o default).key < 2 ^ 32)
    (hn : p.offsets.length ≤ maxLeafNodeCells)
    (hfo : p.fileOffset < 2 ^ 64) (hlsn : p.lastLSN < 2 ^ 64)
    (hls : p.lSibFileOffset < 2 ^ 64) (hrs : p.rSibFileOffset < 2 ^ 64) :
    ∃ q, (leafNode.encode p).bind leafNode.decode = some q ∧
      q.fileOffset = p.fileOffset ∧ q.lastLSN = p.lastLSN ∧
      q.hasLSib = p.hasLSib ∧ q.hasRSib = p.hasRSib ∧
      q.lSibFileOffset = p.lSibFileOffset ∧ q.rSibFileOffset = p.rSibFileOffset ∧
      q.offsets = p.offsets ∧
      ∀ j, j < p.offsets.length →
        q.cells.getD (q.offsets.getD j 0) default =
          p.cells.getD (p.offsets.getD j 0) default := by
  have hn9 : p.offsets.length ≤ 9 := hn
  have hfo' : p.fileOffset < 256 ^ 8 := lt_of_lt_of_le hfo (by norm_num)
  have hlsn' : p.lastLSN < 256 ^ 8 := lt_of_lt_of_le hlsn (by norm_num)
  have hls' : p.lSibFileOffset < 256 ^ 8 := lt_of_lt_of_le hls (by norm_num)
  have hrs' : p.rSibFileOffset < 256 ^ 8 := lt_of_lt_of_le hrs (by norm_num)
  have hcnt : p.offsets.length < 256 ^ 4 := by omega
  have hfree : leafFree p < 256 ^ 2 := by
    have : leafFree p ≤ pageSize := by simp only [leafFree]; omega
    simp only [pageSize] at this
    omega
  have hu16 : ∀ o ∈ p.offsets, o < 65536 := fun o ho => by
    have := hbn o ho; omega
  have hcells := readLeafCells_round p.cells p.offsets []
    (fun o ho => ⟨(hv o ho).2.2, (hv o ho).1, by
      have h1 := (hv o ho).1
      have h2 := (hv o ho).2.1
      simp only [maxValueSize] at h2
      omega⟩)
  rw [List.append_nil] at hcells
  obtain ⟨out, hout⟩ := scatter_some
    (List.replicate p.offsets.length (default : leafNodeCell)) p.offsets
    (p.offsets.map (fun o => p.cells.getD o default))
    (by simp) (fun o ho => by simpa using hbn o ho)
  have hnd : p.offsets.Nodup := nodup_of_slot_sorted hsort
  rw [leaf_encode_eq p hb (fun o ho => (hv o ho).2.1) hn]
  simp only [Option.bind_eq_bind, Option.some_bind]
  rw [leafNode.decode, leafHeaderBytes]
  simp only [List.cons_append, List.append_assoc]
  simp only [readLE_one_cons, readLE_round _ hfo', readLE_round _ hlsn',
    readLE_boolByte, readLE_round _ hls', readLE_round _ hrs',
    readLE_round _ hcnt, readU16s_round _ _ hu16, readLE_round _ hfree,
    Option.bind_eq_bind, Option.some_bind, if_pos rfl]
  rw [List.drop_left' (List.length_replicate _ _)]
  rw [hcells]
  simp only [Option.some_bind]
  rw [hout]
  simp only [Option.some_bind, Option.pure_def]
  refine ⟨_, rfl, rfl, rfl, by cases p.hasLSib <;> simp,
    by cases p.hasRSib <;> simp, rfl, rfl, rfl, ?_⟩
  intro j hj
  have hsc := scatter_getD hnd hout j hj
  rw [hsc]
  rw [List.getD_eq_getElem _ _ (by simpa using hj),
    List.getD_eq_getElem _ _ hj, List.getElem_map]

set_option maxHeartbeats 1000000 in
/-- Round-trip for internal nodes: decoding an encoded valid internal
node restores the header fields, the slot array, and every
slot-referenced cell. -/
theorem internal_decode_encode (p : internalNode)
    (hb : ∀ o ∈ p.offsets, o < p.cells.length)
    (hbn : ∀ o ∈ p.offsets, o < p.offsets.length)
    (hsort : List.Pairwise (fun a b =>
      (p.cells.getD a default).key < (p.cells.getD b default).key) p.offsets)
    (hk : ∀ o ∈ p.offsets, (p.cells.getD o default).key < 2 ^ 32 ∧
      (p.cells.getD o default).fileOffset < 2 ^ 64)
    (hn : p.offsets.length ≤ maxInternalNodeCells)
    (hfo : p.fileOffset < 2 ^ 64) (hlsn : p.lastLSN < 2 ^ 64)
    (hro : p.rightOffset < 2 ^ 64) :
    ∃ q, (internalNode.encode p).bind internalNode.decode = some q ∧
      q.fileOffset = p.fileOffset ∧ q.lastLSN = p.lastLSN ∧
      q.rightOffset = p.rightOffset ∧ q.offsets = p.offsets ∧
      ∀ j, j < p.offsets.length →
        q.cells.getD (q.offsets.getD j 0) default =
          p.cells.getD (p.offsets.getD j 0) default := by
  have hn290 : p.offsets.length ≤ 290 := hn
  have hfo' : p.fileOffset < 256 ^ 8 := lt_of_lt_of_le hfo (by norm_num)
  have hlsn' : p.lastLSN < 256 ^ 8 := lt_of_lt_of_le hlsn (by norm_num)
  have hro' : p.rightOffset < 256 ^ 8 := lt_of_lt_of_le hro (by norm_num)
  have hcnt : p.offsets.length < 256 ^ 4 := by omega
  have hfree : internalFree p < 256 ^ 2 := by
    simp only [internalFree]; omega
  have hu16 : ∀ o ∈ p.offsets, o < 65536 := fun o ho => by
    have := hbn o ho; omega
  have hcells := readInternalCells_round p.cells p.offsets [] hk
  rw [List.append_nil] at hcells
  obtain ⟨out, hout⟩ := scatter_some
    (List.replicate p.offsets.length (default : internalNodeCell)) p.offsets
    (p.offsets.map (fun o => p.cells.getD o default))
    (by simp) (fun o ho => by simpa using hbn o ho)
  have hnd : p.offsets.Nodup := nodup_of_slot_sorted hsort
  rw [internal_encode_eq p hb hn]
  simp only [Option.bind_eq_bind, Option.some_bind]
  rw [internalNode.decode, internalHeaderBytes]
  simp only [List.cons_append, List.append_assoc]
  simp only [readLE_one_cons, readLE_round _ hfo', readLE_round _ hlsn',
    readLE_round _ hro', readLE_round _ hcnt, readU16s_round _ _ hu16,
    readLE_round _ hfree, Option.bind_eq_bind, Option.some_bind, if_pos rfl]
  rw [List.drop_left' (List.length_replicate _ _)]
  rw [hcells]
  simp only [Option.some_bind]
  rw [hout]
  simp only [Option.some_bind, Option.pure_def]
  refine ⟨_, rfl, rfl, rfl, rfl, rfl, ?_⟩
  intro j hj
  have hsc := scatter_getD hnd hout j hj
  rw [hsc]
  rw [List.getD_eq_getElem _ _ (by simpa using hj),
    List.getD_eq_getElem _ _ hj, List.getElem_map]

/-- A leaf node that satisfies the spec's node invariants — slot keys
strictly ordered, every slot entry indexing a valid cell, cell count
within the maximum, `value_size = len(value) ≤ 400` — but whose slot
entry (1) is not less than the cell count (1): the state `split` leaves
behind, since `split` truncates `offsets` but keeps `cells` intact. -/
def leafC2ex : leafNode :=
  ⟨4096, 1, false, 0, [1], [⟨3, 0, [], false⟩, ⟨7, 1, [42], false⟩],
    false, false, 0, 0⟩

/-- C2 counterexample: `leafC2ex` is valid in the claim's sense, its
encoding succeeds, yet decoding the encoded page fails (the decoder
scatters cell 0 to index `offsets[0] = 1` of a cell array of length
`cell_count = 1` — an out-of-range write, a panic in Go), so
`decode(encode(N)) = N` fails for it. -/
theorem C2_roundtrip_counterexample :
    (leafNode.encode leafC2ex).isSome = true ∧
    (leafNode.encode leafC2ex).bind leafNode.decode = none := by
  have henc := leaf_encode_eq leafC2ex (by decide) (by decide) (by decide)
  have hfo' : leafC2ex.fileOffset < 256 ^ 8 := by decide
  have hlsn' : leafC2ex.lastLSN < 256 ^ 8 := by decide
  have hls' : leafC2ex.lSibFileOffset < 256 ^ 8 := by decide
  have hrs' : leafC2ex.rSibFileOffset < 256 ^ 8 := by decide
  have hcnt : leafC2ex.offsets.length < 256 ^ 4 := by decide
  have hfree : leafFree leafC2ex < 256 ^ 2 := by decide
  have hu16 : ∀ o ∈ leafC2ex.offsets, o < 65536 := by decide
  have hcells := readLeafCells_round leafC2ex.cells leafC2ex.offsets [] (by decide)
  rw [List.append_nil] at hcells
  refine ⟨by rw [henc]; rfl, ?_⟩
  rw [henc]
  simp only [Option.bind_eq_bind, Option.some_bind]
  rw [leafNode.decode, leafHeaderBytes]
  simp only [List.cons_append, List.append_assoc]
  simp only [readLE_one_cons, readLE_round _ hfo', readLE_round _ hlsn',
    readLE_boolByte, readLE_round _ hls', readLE_round _ hrs',
    readLE_round _ hcnt, readU16s_round _ _ hu16, readLE_round _ hfree,
    Option.bind_eq_bind, Option.some_bind, if_pos rfl]
  rw [List.drop_left' (List.length_replicate _ _)]
  rw [hcells]
  simp only [Option.some_bind]
  rw [show scatter (List.replicate leafC2ex.offsets.length (default : leafNodeCell))
    leafC2ex.offsets (leafC2ex.offsets.map (fun o => leafC2ex.cells.getD o default)) =
    (none : Option (List leafNodeCell)) from by decide]
  simp

/-- C2 (amended): encode/decode round-trip for every valid node,
where validity additionally requires every slot entry to be less than
the cell count `len(offsets)` (the decoder scatters the cells read in
slot order into an array of length `cell_count`, so slot entries
pointing past it — legal in memory, where they index `cells` — cannot
survive a round trip). Round-tripped data: header fields, the slot
array, and the cell read through `cells[offsets[i]]` for every slot
(keys, and for leaves value bytes, value sizes and deleted flags). -/
theorem C2_roundtrip_amended (p : internalNode) (l : leafNode)
    (hbp : ∀ o ∈ p.offsets, o < p.cells.length)
    (hbnp : ∀ o ∈ p.offsets, o < p.offsets.length)
    (hsortp : List.Pairwise (fun a b =>
      (p.cells.getD a default).key < (p.cells.getD b default).key) p.offsets)
    (hkp : ∀ o ∈ p.offsets, (p.cells.getD o default).key < 2 ^ 32 ∧
      (p.cells.getD o default).fileOffset < 2 ^ 64)
    (hnp : p.offsets.length ≤ maxInternalNodeCells)
    (hfop : p.fileOffset < 2 ^ 64) (hlsnp : p.lastLSN < 2 ^ 64)
    (hrop : p.rightOffset < 2 ^ 64)
    (hbl : ∀ o ∈ l.offsets, o < l.cells.length)
    (hbnl : ∀ o ∈ l.offsets, o < l.offsets.length)
    (hsortl : List.Pairwise (fun a b =>
      (l.cells.getD a default).key < (l.cells.getD b default).key) l.offsets)
    (hvl : ∀ o ∈ l.offsets,
      (l.cells.getD o default).valueSize = (l.cells.getD o default).valueBytes.length ∧
      (l.cells.getD o default).valueBytes.length ≤ maxValueSize ∧
      (l.cells.getD o default).key < 2 ^ 32)
    (hnl : l.offsets.length ≤ maxLeafNodeCells)
    (hfol : l.fileOffset < 2 ^ 64) (hlsnl : l.lastLSN < 2 ^ 64)
    (hlsl : l.lSibFileOffset < 2 ^ 64) (hrsl : l.rSibFileOffset < 2 ^ 64) :
    (∃ q, (internalNode.encode p).bind internalNode.decode = some q ∧
      q.fileOffset = p.fileOffset ∧ q.lastLSN = p.lastLSN ∧
      q.rightOffset = p.rightOffset ∧ q.offsets = p.offsets ∧
      ∀ j, j < p.offsets.length →
        q.cells.getD (q.offsets.getD j 0) default =
          p.cells.getD (p.offsets.getD j 0) default) ∧
    (∃ q, (leafNode.encode l).bind leafNode.decode = some q ∧
      q.fileOffset = l.fileOffset ∧ q.lastLSN = l.lastLSN ∧
      q.hasLSib = l.hasLSib ∧ q.hasRSib = l.hasRSib ∧
      q.lSibFileOffset = l.lSibFileOffset ∧ q.rSibFileOffset = l.rSibFileOffset ∧
      q.offsets = l.offsets ∧
      ∀ j, j < l.offsets.length →
        q.cells.getD (q.offsets.getD j 0) default =
          l.cells.getD (l.offsets.getD j 0) default) :=
  ⟨internal_decode_encode p hbp hbnp hsortp hkp hnp hfop hlsnp hrop,
   leaf_decode_encode l hbl hbnl hsortl hvl hnl hfol hlsnl hlsl hrsl⟩

/-- Witness for the amended C2 at a two-cell internal node and a
two-cell leaf node. -/
theorem C2_roundtrip_amended_witness :
    (∃ q, (internalNode.encode
        ⟨4096, 2, false, 0, [0, 1], [⟨5, 8192⟩, ⟨9, 12288⟩], 16384⟩).bind
        internalNode.decode = some q ∧
      q.fileOffset = 4096 ∧ q.lastLSN = 2 ∧ q.rightOffset = 16384 ∧
      q.offsets = [0, 1] ∧
      ∀ j, j < (2 : Nat) →
        q.cells.getD (q.offsets.getD j 0) default =
          ([⟨5, 8192⟩, ⟨9, 12288⟩] : List internalNodeCell).getD
            (([0, 1] : List Nat).getD j 0) default) ∧
    (∃ q, (leafNode.encode
        ⟨8192, 3, false, 0, [0, 1], [⟨5, 1, [10], false⟩, ⟨9, 2, [1, 2], true⟩],
          false, false, 0, 0⟩).bind leafNode.decode = some q ∧
      q.fileOffset = 8192 ∧ q.lastLSN = 3 ∧
      q.hasLSib = false ∧ q.hasRSib = false ∧
      q.lSibFileOffset = 0 ∧ q.rSibFileOffset = 0 ∧
      q.offsets = [0, 1] ∧
      ∀ j, j < (2 : Nat) →
        q.cells.getD (q.offsets.getD j 0) default =
          ([⟨5, 1, [10], false⟩, ⟨9, 2, [1, 2], true⟩] : List leafNodeCell).getD
            (([0, 1] : List Nat).getD j 0) default) :=
  C2_roundtrip_amended
    ⟨4096, 2, false, 0, [0, 1], [⟨5, 8192⟩, ⟨9, 12288⟩], 16384⟩
    ⟨8192, 3, false, 0, [0, 1], [⟨5, 1, [10], false⟩, ⟨9, 2, [1, 2], true⟩],
      false, false, 0, 0⟩
    (by decide) (by decide) (by decide) (by decide) (by decide) (by decide)
    (by decide) (by decide) (by decide) (by decide) (by decide) (by decide)
    (by decide) (by decide) (by decide) (by decide) (by decide)

/-! ## Binary search (C5) -/

/-- Loop invariant proof for the shared binary-search loop: with keys
strictly increasing on `[0, n)`, enough fuel, and the standing
invariants that keys left of `low` are below the probe and keys at or
right of `hi` are above it, the loop returns either a hit (a slot
holding the probe key) or the lower-bound insertion point. -/
theorem bsearchGo_spec (keyAt : Nat → Nat) (key n : Nat)
    (hsort : ∀ i j, i < j → j < n → keyAt i < keyAt j) :
    ∀ fuel low hi, hi ≤ n → low ≤ hi → hi - low < fuel →
      (∀ j, j < n → j < low → keyAt j < key) →
      (∀ j, j < n → hi ≤ j → key < keyAt j) →
      ((bsearchGo keyAt key fuel low hi).2 = true →
        (bsearchGo keyAt key fuel low hi).1 < n ∧
        keyAt (bsearchGo keyAt key fuel low hi).1 = key) ∧
      ((bsearchGo keyAt key fuel low hi).2 = false →
        (bsearchGo keyAt key fuel low hi).1 ≤ n ∧
        (∀ j, j < n → j < (bsearchGo keyAt key fuel low hi).1 → keyAt j < key) ∧
        (∀ j, j < n → (bsearchGo keyAt key fuel low hi).1 ≤ j →
          key < keyAt j)) := by
  intro fuel
  induction fuel with
  | zero => intro low hi h1 h2 h3 _ _; omega
  | succ fuel ih =>
    intro low hi h1 h2 h3 hlo hhi
    by_cases hlh : low < hi
    · have hmid2 : low + (hi - 1 - low) / 2 < hi := by omega
      by_cases he : keyAt (low + (hi - 1 - low) / 2) = key
      · simp only [bsearchGo, if_pos hlh, if_pos he]
        exact ⟨fun _ => ⟨by omega, he⟩, fun hf => by simp at hf⟩
      · by_cases hlt : keyAt (low + (hi - 1 - low) / 2) < key
        · simp only [bsearchGo, if_pos hlh, if_neg he, if_pos hlt]
          refine ih (low + (hi - 1 - low) / 2 + 1) hi h1 (by omega) (by omega)
            ?_ hhi
          intro j hj hjm
          rcases Nat.lt_or_ge j (low + (hi - 1 - low) / 2) with hc | hc
          · exact lt_trans (hsort j _ hc (by omega)) hlt
          · have hje : j = low + (hi - 1 - low) / 2 := by omega
            rw [hje]
            exact hlt
        · simp only [bsearchGo, if_pos hlh, if_neg he, if_neg hlt]
          refine ih low (low + (hi - 1 - low) / 2) (by omega) (by omega)
            (by omega) hlo ?_
          intro j hj hjm
          rcases Nat.lt_or_ge (low + (hi - 1 - low) / 2) j with hc | hc
          · have := hsort _ j hc hj
            omega
          · have hje : j = low + (hi - 1 - low) / 2 := by omega
            rw [hje]
            omega
    · simp only [bsearchGo, if_neg hlh]
      exact ⟨fun ht => by simp at ht,
        fun _ => ⟨by omega, fun j hj hjl => hlo j hj hjl,
          fun j hj hjl => hhi j hj (by omega)⟩⟩

/-- The full-range instance of the loop invariant: specification of the
one-shot search over slots `[0, n)`. -/
theorem bsearchGo_full (keyAt : Nat → Nat) (key n : Nat)
    (hsort : ∀ i j, i < j → j < n → keyAt i < keyAt j) :
    (∀ i, bsearchGo keyAt key (n + 1) 0 n = (i, true) ↔
      (i < n ∧ keyAt i = key)) ∧
    (∀ i, bsearchGo keyAt key (n + 1) 0 n = (i, false) →
      i ≤ n ∧ (∀ j, j < n → j < i → keyAt j < key) ∧
      (∀ j, j < n → i ≤ j → key < keyAt j)) := by
  have hspec := bsearchGo_spec keyAt key n hsort (n + 1) 0 n (le_refl n)
    (Nat.zero_le n) (by omega) (fun j _ hj => by omega)
    (fun j hj hnj => by omega)
  constructor
  · intro i
    constructor
    · intro hres
      have h2 : (bsearchGo keyAt key (n + 1) 0 n).2 = true := by rw [hres]
      have := hspec.1 h2
      rw [hres] at this
      exact this
    · rintro ⟨hin, hkey⟩
      rcases hb : (bsearchGo keyAt key (n + 1) 0 n) with ⟨r1, r2⟩
      cases r2 with
      | false =>
        have := hspec.2 (by rw [hb])
        rw [hb] at this
        rcases this with ⟨_, hlow, hhigh⟩
        rcases Nat.lt_or_ge i r1 with hc | hc
        · have := hlow i hin hc
          omega
        · have := hhigh i hin hc
          omega
      | true =>
        have := hspec.1 (by rw [hb])
        rw [hb] at this
        have hr1 : r1 < n := by simpa using this.1
        have hr2 : keyAt r1 = key := by simpa using this.2
        have hri : r1 = i := by
          rcases Nat.lt_trichotomy r1 i with hc | hc | hc
          · have := hsort r1 i hc hin
            omega
          · exact hc
          · have := hsort i r1 hc hr1
            omega
        rw [hri]
  · intro i hres
    have := hspec.2 (by rw [hres])
    rw [hres] at this
    exact this

/-- C5: search correctness for both node types: on a node whose
slot-ordered key sequence is strictly increasing,
`findCellOffsetByKey k` returns `(i, true)` exactly when slot `i`
holds key `k`, and otherwise returns `(i, false)` with `i` the
lower-bound insertion point (keys at slots below `i` are smaller,
keys at slots at or above `i` are larger, `i = len(offsets)` when all
are smaller). -/
theorem C5_search_correctness (p : internalNode) (l : leafNode) (key : Nat)
    (hsp : ∀ j, j < p.offsets.length → ∀ i, i < j →
      p.cellKey (p.offsets.getD i 0) < p.cellKey (p.offsets.getD j 0))
    (hsl : ∀ j, j < l.offsets.length → ∀ i, i < j →
      l.cellKey (l.offsets.getD i 0) < l.cellKey (l.offsets.getD j 0)) :
    ((∀ i, p.findCellOffsetByKey key = (i, true) ↔
      (i < p.offsets.length ∧ p.cellKey (p.offsets.getD i 0) = key)) ∧
    (∀ i, p.findCellOffsetByKey key = (i, false) →
      i ≤ p.offsets.length ∧
      (∀ j, j < p.offsets.length → j < i →
        p.cellKey (p.offsets.getD j 0) < key) ∧
      (∀ j, j < p.offsets.length → i ≤ j →
        key < p.cellKey (p.offsets.getD j 0)))) ∧
    ((∀ i, l.findCellOffsetByKey key = (i, true) ↔
      (i < l.offsets.length ∧ l.cellKey (l.offsets.getD i 0) = key)) ∧
    (∀ i, l.findCellOffsetByKey key = (i, false) →
      i ≤ l.offsets.length ∧
      (∀ j, j < l.offsets.length → j < i →
        l.cellKey (l.offsets.getD j 0) < key) ∧
      (∀ j, j < l.offsets.length → i ≤ j →
        key < l.cellKey (l.offsets.getD j 0)))) := by
  constructor
  · exact bsearchGo_full (fun i => p.cellKey (p.offsets.getD i 0)) key
      p.offsets.length (fun i j hij hj => hsp j hj i hij)
  · exact bsearchGo_full (fun i => l.cellKey (l.offsets.getD i 0)) key
      l.offsets.length (fun i j hij hj => hsl j hj i hij)

/-- A two-cell internal node used as concrete witness input. -/
def exInternal : internalNode :=
  ⟨4096, 2, false, 0, [0, 1], [⟨5, 8192⟩, ⟨9, 12288⟩], 16384⟩

/-- A two-cell leaf node used as concrete witness input. -/
def exLeaf : leafNode :=
  ⟨8192, 3, false, 0, [0, 1], [⟨5, 1, [10], false⟩, ⟨9, 2, [1, 2], true⟩],
    false, false, 0, 0⟩

/-- Witness for C5 at the concrete two-cell nodes and probe key 9. -/
theorem C5_search_correctness_witness :
    ((∀ i, exInternal.findCellOffsetByKey 9 = (i, true) ↔
      (i < exInternal.offsets.length ∧
        exInternal.cellKey (exInternal.offsets.getD i 0) = 9)) ∧
    (∀ i, exInternal.findCellOffsetByKey 9 = (i, false) →
      i ≤ exInternal.offsets.length ∧
      (∀ j, j < exInternal.offsets.length → j < i →
        exInternal.cellKey (exInternal.offsets.getD j 0) < 9) ∧
      (∀ j, j < exInternal.offsets.length → i ≤ j →
        9 < exInternal.cellKey (exInternal.offsets.getD j 0)))) ∧
    ((∀ i, exLeaf.findCellOffsetByKey 9 = (i, true) ↔
      (i < exLeaf.offsets.length ∧
        exLeaf.cellKey (exLeaf.offsets.getD i 0) = 9)) ∧
    (∀ i, exLeaf.findCellOffsetByKey 9 = (i, false) →
      i ≤ exLeaf.offsets.length ∧
      (∀ j, j < exLeaf.offsets.length → j < i →
        exLeaf.cellKey (exLeaf.offsets.getD j 0) < 9) ∧
      (∀ j, j < exLeaf.offsets.length → i ≤ j →
        9 < exLeaf.cellKey (exLeaf.offsets.getD j 0)))) :=
  C5_search_correctness exInternal exLeaf 9 (by decide) (by decide)

/-! ## Splits (C1, C4) -/

/-- The slot-ordered cells of a leaf node. -/
def leafSlotCells (p : leafNode) : List leafNodeCell :=
  p.offsets.map (fun o => p.cells.getD o default)

/-- The slot-ordered (key, value) pairs of a leaf node. -/
def leafSlotKV (p : leafNode) : List (Nat × List Nat) :=
  (leafSlotCells p).map (fun c => (c.key, c.valueBytes))

theorem foldl_appendCell_leaf_offsets (cs : List leafNodeCell) (acc : leafNode) :
    (cs.foldl (fun a c => a.appendCell c.key c.valueBytes) acc).offsets =
      acc.offsets ++ (List.range cs.length).map (fun i => acc.offsets.length + i) := by
  induction cs generalizing acc with
  | nil => simp
  | cons c cs ih =>
    simp only [List.foldl_cons]
    rw [ih]
    simp only [leafNode.appendCell, List.length_append, List.length_cons,
      List.length_nil, List.append_assoc, List.length_cons]
    congr 1
    rw [List.range_succ_eq_map]
    simp only [List.map_cons, List.map_map, Nat.add_zero, List.singleton_append]
    congr 1
    apply List.map_congr_left
    intro a _
    simp [Function.comp]
    omega

theorem foldl_appendCell_leaf_cells (cs : List leafNodeCell) (acc : leafNode) :
    (cs.foldl (fun a c => a.appendCell c.key c.valueBytes) acc).cells =
      acc.cells ++ cs.map (fun c =>
        ⟨c.key, c.valueBytes.length, c.valueBytes, false⟩) := by
  induction cs generalizing acc with
  | nil => simp
  | cons c cs ih =>
    simp only [List.foldl_cons]
    rw [ih]
    simp [leafNode.appendCell]

/-- Reading every index of a list through `getD` over `range` gives
the list back. -/
theorem map_range_getD {α : Type} [Inhabited α] (l : List α) :
    (List.range l.length).map (fun i => l.getD i default) = l := by
  apply List.ext_getElem
  · simp
  · intro i h1 h2
    simp only [List.getElem_map, List.getElem_range]
    rw [List.getD_eq_getElem _ _ h2]

theorem map_range_getD_of_len {α : Type} [Inhabited α] (l : List α) (k : Nat)
    (hk : l.length = k) :
    (List.range k).map (fun i => l.getD i default) = l := by
  subst hk
  exact map_range_getD l

theorem getD_map_lt {α β : Type} [Inhabited α] [Inhabited β] (f : α → β)
    (l : List α) (i : Nat) (h : i < l.length) :
    (l.map f).getD i default = f (l.getD i default) := by
  rw [List.getD_eq_getElem _ _ (by simpa using h), List.getD_eq_getElem _ _ h,
    List.getElem_map]

theorem getD_map_nat {α : Type} [Inhabited α] (f : α → Nat) (l : List α)
    (i : Nat) (h : i < l.length) :
    (l.map f).getD i 0 = f (l.getD i default) := by
  rw [List.getD_eq_getElem _ _ (by simpa using h), List.getD_eq_getElem _ _ h,
    List.getElem_map]

theorem getD_drop0 (l : List Nat) (n i : Nat) (h : i < (l.drop n).length) :
    (l.drop n).getD i 0 = l.getD (n + i) 0 := by
  have h2 : n + i < l.length := by simp at h; omega
  rw [List.getD_eq_getElem _ _ h, List.getD_eq_getElem _ _ h2,
    List.getElem_drop]

theorem getD_range0 (k i : Nat) (h : i < k) :
    (List.range k).getD i 0 = i := by
  rw [List.getD_eq_getElem _ _ (by simpa using h)]
  simp

/-- C4: leaf split. On a leaf with `n ≥ 1` slot-ordered cells (keys
strictly increasing along slots) and a fresh (empty) new page, `split`
keeps slots `[0, mid)` on the old page, moves the entries at slots
`[mid, n)` to the new page in order, returns the new page's first key
`cells[newPage.offsets[0]].key` as separator — which is the smallest
key of the new page — and the (key, value) pairs of the two post-split
pages together are a permutation (equal multiset) of the pre-split
page's pairs. -/
theorem C4_leaf_split (p newPg : leafNode)
    (hE : newPg.offsets = [] ∧ newPg.cells = [])
    (hsort : ∀ j, j < p.offsets.length → ∀ i, i < j →
      p.cellKey (p.offsets.getD i 0) < p.cellKey (p.offsets.getD j 0))
    (hne : p.offsets ≠ []) :
    ∃ old new1 sep, p.split newPg = some (old, new1, sep) ∧
      old.offsets = p.offsets.take (p.offsets.length / 2) ∧
      old.cells = p.cells ∧
      leafSlotKV new1 = (leafSlotKV p).drop (p.offsets.length / 2) ∧
      sep = (new1.cells.getD (new1.offsets.getD 0 0) default).key ∧
      (∀ j, j < new1.offsets.length →
        sep ≤ new1.cellKey (new1.offsets.getD j 0)) ∧
      (leafSlotKV old ++ leafSlotKV new1).Perm (leafSlotKV p) := by
  obtain ⟨hE1, hE2⟩ := hE
  have hn1 : 1 ≤ p.offsets.length := by
    cases hos : p.offsets with
    | nil => exact absurd hos hne
    | cons a l => simp [hos]
  have hmlt : p.offsets.length / 2 < p.offsets.length := by omega
  have hoff := foldl_appendCell_leaf_offsets
    ((p.offsets.drop (p.offsets.length / 2)).map (fun o => p.cells.getD o default))
    newPg
  have hcell := foldl_appendCell_leaf_cells
    ((p.offsets.drop (p.offsets.length / 2)).map (fun o => p.cells.getD o default))
    newPg
  rw [hE1] at hoff
  rw [hE2] at hcell
  simp only [List.nil_append, List.length_nil, Nat.zero_add, List.length_map,
    List.length_drop, List.map_id, List.map_id'] at hoff hcell
  have hrange : List.range (p.offsets.length - p.offsets.length / 2) =
      0 :: (List.range (p.offsets.length - p.offsets.length / 2 - 1)).map Nat.succ := by
    conv_lhs => rw [show p.offsets.length - p.offsets.length / 2 =
      (p.offsets.length - p.offsets.length / 2 - 1) + 1 from by omega]
    rw [List.range_succ_eq_map]
  rw [leafNode.split]
  simp only [hoff, hrange]
  have hkv : leafSlotKV (List.foldl (fun a c => a.appendCell c.key c.valueBytes)
      newPg ((p.offsets.drop (p.offsets.length / 2)).map
        (fun o => p.cells.getD o default))) =
      (leafSlotKV p).drop (p.offsets.length / 2) := by
    unfold leafSlotKV leafSlotCells
    rw [hoff, hcell]
    rw [map_range_getD_of_len _ _ (by simp)]
    simp only [List.map_map]
    rw [← List.map_drop]
    rfl
  have hgetj : ∀ j, j < p.offsets.length - p.offsets.length / 2 →
      ((List.foldl (fun a c => a.appendCell c.key c.valueBytes) newPg
        ((p.offsets.drop (p.offsets.length / 2)).map
          (fun o => p.cells.getD o default))).cells.getD j default).key =
      p.cellKey (p.offsets.getD (p.offsets.length / 2 + j) 0) := by
    intro j hj
    rw [hcell]
    rw [getD_map_lt _ _ _ (by simpa using hj)]
    rw [getD_map_lt _ _ _ (by simpa using hj)]
    simp only [show (default : Nat) = 0 from rfl]
    rw [getD_drop0 _ _ _ (by simpa using hj)]
    rfl
  refine ⟨_, _, _, rfl, rfl, rfl, hkv, ?_, ?_, ?_⟩
  · rw [hoff, hrange]
    simp
  · intro j hj
    rw [hoff] at hj
    simp only [List.length_range] at hj
    rw [hoff, getD_range0 _ _ hj]
    show _ ≤ (_ : leafNode).cellKey _
    unfold leafNode.cellKey
    rw [hgetj j hj, hgetj 0 (by omega)]
    rcases Nat.eq_zero_or_pos j with hj0 | hj0
    · rw [hj0]
    · exact le_of_lt (hsort _ (by omega) _ (by omega))
  · have htake : leafSlotKV
        { p with offsets := p.offsets.take (p.offsets.length / 2) } =
        (leafSlotKV p).take (p.offsets.length / 2) := by
      unfold leafSlotKV leafSlotCells
      simp only [List.map_map]
      rw [← List.map_take]
    rw [htake, hkv, List.take_append_drop]

/-- An empty leaf page, the freshly allocated split target. -/
def emptyLeaf : leafNode := ⟨0, 0, false, 0, [], [], false, false, 0, 0⟩

/-- Witness for C4: splitting the concrete two-cell leaf. -/
theorem C4_leaf_split_witness :
    ∃ old new1 sep, exLeaf.split emptyLeaf = some (old, new1, sep) ∧
      old.offsets = exLeaf.offsets.take (exLeaf.offsets.length / 2) ∧
      old.cells = exLeaf.cells ∧
      leafSlotKV new1 = (leafSlotKV exLeaf).drop (exLeaf.offsets.length / 2) ∧
      sep = (new1.cells.getD (new1.offsets.getD 0 0) default).key ∧
      (∀ j, j < new1.offsets.length →
        sep ≤ new1.cellKey (new1.offsets.getD j 0)) ∧
      (leafSlotKV old ++ leafSlotKV new1).Perm (leafSlotKV exLeaf) :=
  C4_leaf_split exLeaf emptyLeaf (by decide) (by decide) (by decide)

/-- The slot-ordered cells of an internal node. -/
def internalSlotCells (p : internalNode) : List internalNodeCell :=
  p.offsets.map (fun o => p.cells.getD o default)

/-- The slot-ordered keys of an internal node. -/
def internalSlotKeys (p : internalNode) : List Nat :=
  (internalSlotCells p).map (fun c => c.key)

/-- The slot-ordered child pointers of an internal node. -/
def internalSlotFos (p : internalNode) : List Nat :=
  (internalSlotCells p).map (fun c => c.fileOffset)

/-- The slot-ordered (key, child-offset) pairs of an internal node. -/
def internalSlotPairs (p : internalNode) : List (Nat × Nat) :=
  (internalSlotCells p).map (fun c => (c.key, c.fileOffset))

theorem foldl_appendCell_int_offsets (cs : List internalNodeCell) (acc : internalNode) :
    (cs.foldl (fun a c => a.appendCell c.key c.fileOffset) acc).offsets =
      acc.offsets ++ (List.range cs.length).map (fun i => acc.offsets.length + i) := by
  induction cs generalizing acc with
  | nil => simp
  | cons c cs ih =>
    simp only [List.foldl_cons]
    rw [ih]
    simp only [internalNode.appendCell, List.length_append, List.length_cons,
      List.length_nil, List.append_assoc]
    congr 1
    rw [List.range_succ_eq_map]
    simp only [List.map_cons, List.map_map, Nat.add_zero, List.singleton_append]
    congr 1
    apply List.map_congr_left
    intro a _
    simp [Function.comp]
    omega

theorem foldl_appendCell_int_cells (cs : List internalNodeCell) (acc : internalNode) :
    (cs.foldl (fun a c => a.appendCell c.key c.fileOffset) acc).cells =
      acc.cells ++ cs := by
  induction cs generalizing acc with
  | nil => simp
  | cons c cs ih =>
    simp only [List.foldl_cons]
    rw [ih]
    simp [internalNode.appendCell]

theorem foldl_appendCell_int_right (cs : List internalNodeCell) (acc : internalNode) :
    (cs.foldl (fun a c => a.appendCell c.key c.fileOffset) acc).rightOffset =
      acc.rightOffset := by
  induction cs generalizing acc with
  | nil => simp
  | cons c cs ih =>
    simp only [List.foldl_cons]
    rw [ih]
    rfl

/-- An internal node, valid in the spec's sense, whose slot array is a
non-identity permutation: slot order is keys 10 < 20 < 30 but
`offsets = [2, 0, 1]`. Such states are produced by `insertCell`. -/
def intC1ex : internalNode :=
  ⟨4096, 1, false, 0, [2, 0, 1], [⟨20, 100⟩, ⟨30, 101⟩, ⟨10, 102⟩], 999⟩

/-- An empty internal page, the freshly allocated split target. -/
def emptyInternal : internalNode := ⟨0, 0, false, 0, [], [], 0⟩

/-- C1 counterexample: on `intC1ex` (a valid node with permuted slot
array) `split` promotes `cells[1].key = 30` — not the key 20 of the
median slot entry `cells[offsets[1]] = cells[0]` — and the
(key, child-offset) multiset is not conserved: the median entry's pair
`(20, 100)` vanishes (the source reads `p.cells[mid]` instead of
`p.cells[p.offsets[mid]]`). -/
theorem C1_internal_split_counterexample :
    ((intC1ex.split emptyInternal).2.2 ≠
      (intC1ex.cells.getD (intC1ex.offsets.getD (intC1ex.offsets.length / 2) 0)
        default).key) ∧
    ¬ ((internalSlotFos (intC1ex.split emptyInternal).1 ++
        (intC1ex.split emptyInternal).1.rightOffset ::
        (internalSlotFos (intC1ex.split emptyInternal).2.1 ++
          [(intC1ex.split emptyInternal).2.1.rightOffset])).Perm
        (internalSlotFos intC1ex ++ [intC1ex.rightOffset])) := by
  constructor
  · decide
  · decide

theorem list_take_getD_drop (l : List Nat) (i : Nat) (h : i < l.length) :
    l = l.take i ++ l.getD i 0 :: l.drop (i + 1) := by
  conv_lhs => rw [← List.take_append_drop i l]
  congr 1
  rw [List.getD_eq_getElem _ _ h, List.getElem_cons_drop]

/-- C1 (amended): internal split behaves as claimed on every node whose
median slot references the cell with the same index
(`offsets[mid] = mid`, as in append-built pages). -/
theorem C1_internal_split_amended (p newPg : internalNode)
    (hE : newPg.offsets = [] ∧ newPg.cells = [])
    (hne : p.offsets ≠ [])
    (hm : p.offsets.getD (p.offsets.length / 2) 0 = p.offsets.length / 2) :
    ∃ old new1 sep, p.split newPg = (old, new1, sep) ∧
      sep = (p.cells.getD (p.offsets.getD (p.offsets.length / 2) 0) default).key ∧
      new1.rightOffset = p.rightOffset ∧
      old.rightOffset = (p.cells.getD (p.offsets.getD (p.offsets.length / 2) 0)
        default).fileOffset ∧
      old.offsets = p.offsets.take (p.offsets.length / 2) ∧
      old.cells = p.cells ∧
      internalSlotPairs new1 =
        (internalSlotPairs p).drop (p.offsets.length / 2 + 1) ∧
      (internalSlotKeys old ++ sep :: internalSlotKeys new1).Perm
        (internalSlotKeys p) ∧
      (internalSlotFos old ++ old.rightOffset ::
        (internalSlotFos new1 ++ [new1.rightOffset])).Perm
        (internalSlotFos p ++ [p.rightOffset]) := by
  obtain ⟨hE1, hE2⟩ := hE
  have hn1 : 1 ≤ p.offsets.length := by
    cases hos : p.offsets with
    | nil => exact absurd hos hne
    | cons a l => simp [hos]
  have hmlt : p.offsets.length / 2 < p.offsets.length := by omega
  have hoff := foldl_appendCell_int_offsets
    ((p.offsets.drop (p.offsets.length / 2 + 1)).map
      (fun o => p.cells.getD o default)) newPg
  have hcell := foldl_appendCell_int_cells
    ((p.offsets.drop (p.offsets.length / 2 + 1)).map
      (fun o => p.cells.getD o default)) newPg
  rw [hE1] at hoff
  rw [hE2] at hcell
  simp only [List.nil_append, List.length_nil, Nat.zero_add, List.length_map,
    List.length_drop, List.map_id, List.map_id'] at hoff hcell
  refine ⟨{ p with
      rightOffset := (p.cells.getD (p.offsets.length / 2) default).fileOffset,
      offsets := p.offsets.take (p.offsets.length / 2) },
    { ((p.offsets.drop (p.offsets.length / 2 + 1)).map
        (fun o => p.cells.getD o default)).foldl
        (fun a c => a.appendCell c.key c.fileOffset) newPg with
      rightOffset := p.rightOffset },
    (p.cells.getD (p.offsets.length / 2) default).key,
    rfl, by rw [hm], rfl, by rw [hm], rfl, rfl, ?_, ?_, ?_⟩
  · unfold internalSlotPairs internalSlotCells
    dsimp only
    rw [hoff, hcell]
    rw [map_range_getD_of_len _ _ (by simp)]
    simp only [List.map_map]
    rw [← List.map_drop]
  · unfold internalSlotKeys internalSlotCells
    dsimp only
    rw [hoff, hcell]
    rw [map_range_getD_of_len _ _ (by simp)]
    simp only [List.map_map]
    have hmt : List.map ((fun c => c.key) ∘ fun o => p.cells.getD o default)
        (List.take (p.offsets.length / 2) p.offsets) =
        (List.map ((fun c => c.key) ∘ fun o => p.cells.getD o default)
          p.offsets).take (p.offsets.length / 2) := by
      rw [List.map_take]
    have hmd : List.map ((fun c => c.key) ∘ fun o => p.cells.getD o default)
        (List.drop (p.offsets.length / 2 + 1) p.offsets) =
        (List.map ((fun c => c.key) ∘ fun o => p.cells.getD o default)
          p.offsets).drop (p.offsets.length / 2 + 1) := by
      rw [List.map_drop]
    have hKmid : (p.cells.getD (p.offsets.length / 2) default).key =
        (List.map ((fun c => c.key) ∘ fun o => p.cells.getD o default)
          p.offsets).getD (p.offsets.length / 2) 0 := by
      symm
      rw [getD_map_nat _ _ _ hmlt]
      simp only [show (default : Nat) = 0 from rfl]
      rw [hm]
      rfl
    rw [hmt, hmd, hKmid]
    rw [← list_take_getD_drop _ _ (by simpa using hmlt)]
  · unfold internalSlotFos internalSlotCells
    dsimp only
    rw [hoff, hcell]
    rw [map_range_getD_of_len _ _ (by simp)]
    simp only [List.map_map]
    have hmt : List.map ((fun c => c.fileOffset) ∘ fun o => p.cells.getD o default)
        (List.take (p.offsets.length / 2) p.offsets) =
        (List.map ((fun c => c.fileOffset) ∘ fun o => p.cells.getD o default)
          p.offsets).take (p.offsets.length / 2) := by
      rw [List.map_take]
    have hmd : List.map ((fun c => c.fileOffset) ∘ fun o => p.cells.getD o default)
        (List.drop (p.offsets.length / 2 + 1) p.offsets) =
        (List.map ((fun c => c.fileOffset) ∘ fun o => p.cells.getD o default)
          p.offsets).drop (p.offsets.length / 2 + 1) := by
      rw [List.map_drop]
    have hFmid : (p.cells.getD (p.offsets.length / 2) default).fileOffset =
        (List.map ((fun c => c.fileOffset) ∘ fun o => p.cells.getD o default)
          p.offsets).getD (p.offsets.length / 2) 0 := by
      symm
      rw [getD_map_nat _ _ _ hmlt]
      simp only [show (default : Nat) = 0 from rfl]
      rw [hm]
      rfl
    rw [hmt, hmd, hFmid]
    simp only [← List.cons_append, ← List.append_assoc]
    rw [← list_take_getD_drop _ _ (by simpa using hmlt)]

/-- A three-cell internal node with the identity slot array. -/
def intC1ok : internalNode :=
  ⟨4096, 1, false, 0, [0, 1, 2], [⟨10, 100⟩, ⟨20, 101⟩, ⟨30, 102⟩], 999⟩

/-- Witness for the amended C1: splitting the concrete three-cell
internal node with identity slot array. -/
theorem C1_internal_split_amended_witness :
    ∃ old new1 sep, intC1ok.split emptyInternal = (old, new1, sep) ∧
      sep = (intC1ok.cells.getD
        (intC1ok.offsets.getD (intC1ok.offsets.length / 2) 0) default).key ∧
      new1.rightOffset = intC1ok.rightOffset ∧
      old.rightOffset = (intC1ok.cells.getD
        (intC1ok.offsets.getD (intC1ok.offsets.length / 2) 0) default).fileOffset ∧
      old.offsets = intC1ok.offsets.take (intC1ok.offsets.length / 2) ∧
      old.cells = intC1ok.cells ∧
      internalSlotPairs new1 =
        (internalSlotPairs intC1ok).drop (intC1ok.offsets.length / 2 + 1) ∧
      (internalSlotKeys old ++ sep :: internalSlotKeys new1).Perm
        (internalSlotKeys intC1ok) ∧
      (internalSlotFos old ++ old.rightOffset ::
        (internalSlotFos new1 ++ [new1.rightOffset])).Perm
        (internalSlotFos intC1ok ++ [intC1ok.rightOffset]) :=
  C1_internal_split_amended intC1ok emptyInternal (by decide) (by decide)
    (by decide)

/-! ## updateCell, insertCell, RowTooLarge (C6, C7, C10) -/

/-- A leaf node, valid in the spec's sense, whose slot array is the
non-identity permutation `[1, 0]`: slot order is keys 3 < 5. Such
states are produced by out-of-order insertion through `insertCell`. -/
def leafC6ex : leafNode :=
  ⟨4096, 1, false, 0, [1, 0], [⟨5, 1, [9], false⟩, ⟨3, 1, [8], false⟩],
    false, false, 0, 0⟩

/-- C6 at the failing input: `updateCell 5 [7]` on `leafC6ex` reports
success, but the cell holding key 5 (`cells[0]`) is unchanged and the
cell holding key 3 (`cells[1]`) received the new value: the source
writes through `n.cells[offset]` where `offset` is the slot index
returned by the search, not the cell index `n.offsets[offset]`. -/
theorem C6_update_wrong_cell :
    (leafC6ex.updateCell 5 [7]).2 = none ∧
    (leafC6ex.updateCell 5 [7]).1.cells.getD 0 default =
      ⟨5, 1, [9], false⟩ ∧
    (leafC6ex.updateCell 5 [7]).1.cells.getD 1 default =
      ⟨3, 1, [7], false⟩ := by
  refine ⟨?_, ?_, ?_⟩ <;> decide

/-- C7: `RowTooLarge` atomicity. For any leaf node, any oversized value
`u` (more than 400 bytes) is rejected by both `insertCell` and
`updateCell` with `RowTooLarge` before any mutation (the returned node
is exactly the input), and any value `v` of at most 400 bytes passes
the size check: `insertCell` reports no error and `updateCell` never
reports `RowTooLarge`. -/
theorem C7_rowTooLarge_atomicity (n : leafNode) (offset key : Nat)
    (u v : List Nat) (hu : u.length > maxValueSize)
    (hv : v.length ≤ maxValueSize) :
    n.insertCell offset key u = (n, some DbError.rowTooLarge) ∧
    n.updateCell key u = (n, some DbError.rowTooLarge) ∧
    (n.insertCell offset key v).2 = none ∧
    (n.updateCell key v).2 ≠ some DbError.rowTooLarge := by
  have hcu : checkRowSizeLimit u = some DbError.rowTooLarge := by
    simp [checkRowSizeLimit, hu]
  have hcv : checkRowSizeLimit v = none := by
    simp only [checkRowSizeLimit, gt_iff_lt, if_neg (Nat.not_lt.mpr hv)]
  refine ⟨?_, ?_, ?_, ?_⟩
  · rw [leafNode.insertCell, hcu]
  · rw [leafNode.updateCell, hcu]
  · rw [leafNode.insertCell, hcv]
  · rw [leafNode.updateCell, hcv]
    rcases hfind : n.findCellOffsetByKey key with ⟨i, found⟩
    cases found <;> simp [hfind]

set_option maxRecDepth 4096 in
/-- Witness for C7 at the concrete two-cell leaf, a 401-byte value and
a 1-byte value. -/
theorem C7_rowTooLarge_atomicity_witness :
    exLeaf.insertCell 0 7 (List.replicate 401 0) =
      (exLeaf, some DbError.rowTooLarge) ∧
    exLeaf.updateCell 7 (List.replicate 401 0) =
      (exLeaf, some DbError.rowTooLarge) ∧
    (exLeaf.insertCell 0 7 [1]).2 = none ∧
    (exLeaf.updateCell 7 [1]).2 ≠ some DbError.rowTooLarge :=
  C7_rowTooLarge_atomicity exLeaf 0 7 (List.replicate 401 0) [1]
    (by simp [maxValueSize]) (by decide)

theorem getD_set_self {α : Type} [Inhabited α] (l : List α) (i : Nat) (x : α)
    (h : i < l.length) : (l.set i x).getD i default = x := by
  rw [List.getD_eq_getElem _ _ (by simpa using h)]
  simp [List.getElem_set]

theorem getD_set_ne {α : Type} [Inhabited α] (l : List α) (i k : Nat) (x : α)
    (hne : i ≠ k) : (l.set i x).getD k default = l.getD k default := by
  rcases Nat.lt_or_ge k l.length with hk | hk
  · rw [List.getD_eq_getElem _ _ (by simpa using hk),
      List.getD_eq_getElem _ _ hk]
    simp [List.getElem_set, hne]
  · rw [List.getD_eq_default _ _ (by simpa using hk),
      List.getD_eq_default _ _ hk]

theorem getD_append_len {α : Type} [Inhabited α] (l1 : List α) (x : α)
    (l2 : List α) : (l1 ++ x :: l2).getD l1.length default = x := by
  rw [List.getD_eq_getElem _ _ (by simp)]
  rw [List.getElem_append_right (le_refl l1.length)]
  simp

theorem getD_append_left {α : Type} [Inhabited α] (l1 l2 : List α) (i : Nat)
    (h : i < l1.length) : (l1 ++ l2).getD i default = l1.getD i default := by
  rw [List.getD_eq_getElem _ _ (by simp; omega), List.getD_eq_getElem _ _ h]
  exact List.getElem_append_left h

theorem set_append_of_len {α : Type} (s : Nat) (l1 : List α) (x y : α)
    (l2 : List α) (h : l1.length = s) :
    (l1 ++ x :: l2).set s y = l1 ++ y :: l2 := by
  subst h
  induction l1 with
  | nil => rfl
  | cons a l ih =>
    simp only [List.cons_append, List.length_cons, List.set, List.append_eq]
    rw [ih]

theorem getD0_append_of_len (s : Nat) (l1 : List Nat) (x : Nat) (l2 : List Nat)
    (h : l1.length = s) : (l1 ++ x :: l2).getD s 0 = x := by
  subst h
  exact getD_append_len l1 x l2

theorem getD0_append_right (A l2 : List Nat) (k : Nat) :
    (A ++ l2).getD (A.length + k) 0 = l2.getD k 0 := by
  induction A with
  | nil => simp
  | cons a A ih =>
    simp only [List.cons_append, List.length_cons]
    rw [show A.length + 1 + k = (A.length + k) + 1 from by omega]
    rw [List.getD_cons_succ]
    exact ih

/-- The slot array after `internalNode.insertCell` at slot `s`:
`take s ++ [index of the new cell] ++ drop s`. -/
theorem insertCell_offsets (n : internalNode) (s key fo : Nat)
    (hs : s < n.offsets.length) :
    (n.insertCell s key fo).offsets =
      n.offsets.take s ++ n.cells.length :: n.offsets.drop s := by
  rw [internalNode.insertCell]
  dsimp only
  rw [← List.take_concat_get' n.offsets s hs]
  rw [List.append_assoc, List.singleton_append]
  exact set_append_of_len s _ _ _ _ (by rw [List.length_take]; omega)

theorem insertCell_offsets_getD_s (n : internalNode) (s key fo : Nat)
    (hs : s < n.offsets.length) :
    (n.insertCell s key fo).offsets.getD s 0 = n.cells.length := by
  rw [insertCell_offsets n s key fo hs]
  exact getD0_append_of_len s _ _ _ (by rw [List.length_take]; omega)

theorem insertCell_offsets_getD_s1 (n : internalNode) (s key fo : Nat)
    (hs : s < n.offsets.length) :
    (n.insertCell s key fo).offsets.getD (s + 1) 0 = n.offsets.getD s 0 := by
  rw [insertCell_offsets n s key fo hs]
  rw [show n.offsets.take s ++ n.cells.length :: n.offsets.drop s =
    (n.offsets.take s ++ [n.cells.length]) ++ n.offsets.drop s from by simp]
  rw [show s + 1 = (n.offsets.take s ++ [n.cells.length]).length + 0 from by
    simp only [List.length_append, List.length_take, List.length_cons,
      List.length_nil]
    omega]
  rw [getD0_append_right]
  rw [getD_drop0 _ _ _ (by simp; omega), Nat.add_zero]

/-- The cell array after `internalNode.insertCell`: the new cell (at
index `len(cells)`) holds the argument key but the child pointer that
the cell at the old slot `s` held; that cell holds the argument child
pointer; all other cells are untouched. -/
theorem insertCell_cells_getD (n : internalNode) (s key fo : Nat)
    (hs : s < n.offsets.length) (hb : ∀ o ∈ n.offsets, o < n.cells.length) :
    (∀ o, o < n.cells.length →
      (n.insertCell s key fo).cells.getD o default =
        (if o = n.offsets.getD s 0
          then ⟨(n.cells.getD o default).key, fo⟩
          else n.cells.getD o default)) ∧
    (n.insertCell s key fo).cells.getD n.cells.length default =
      ⟨key, (n.cells.getD (n.offsets.getD s 0) default).fileOffset⟩ := by
  have hjmem : n.offsets.getD s 0 ∈ n.offsets := by
    rw [List.getD_eq_getElem _ _ hs]
    exact List.getElem_mem _
  have hjlt : n.offsets.getD s 0 < n.cells.length := hb _ hjmem
  have hoffraw : (n.offsets.take (s + 1) ++ n.offsets.drop s).set s
      n.cells.length = n.offsets.take s ++ n.cells.length :: n.offsets.drop s := by
    rw [← List.take_concat_get' n.offsets s hs]
    rw [List.append_assoc, List.singleton_append]
    exact set_append_of_len s _ _ _ _ (by rw [List.length_take]; omega)
  have hi' : (n.offsets.take s ++ n.cells.length :: n.offsets.drop s).getD s 0 =
      n.cells.length :=
    getD0_append_of_len s _ _ _ (by rw [List.length_take]; omega)
  have hj' : (n.offsets.take s ++ n.cells.length :: n.offsets.drop s).getD
      (s + 1) 0 = n.offsets.getD s 0 := by
    rw [show n.offsets.take s ++ n.cells.length :: n.offsets.drop s =
      (n.offsets.take s ++ [n.cells.length]) ++ n.offsets.drop s from by simp]
    rw [show s + 1 = (n.offsets.take s ++ [n.cells.length]).length + 0 from by
      simp only [List.length_append, List.length_take, List.length_cons,
        List.length_nil]
      omega]
    rw [getD0_append_right]
    rw [getD_drop0 _ _ _ (by simp only [List.length_drop]; omega), Nat.add_zero]
  have hci : (n.cells ++ [(⟨key, fo⟩ : internalNodeCell)]).getD n.cells.length
      default = (⟨key, fo⟩ : internalNodeCell) := getD_append_len _ _ _
  have hcj : (n.cells ++ [(⟨key, fo⟩ : internalNodeCell)]).getD
      (n.offsets.getD s 0) default = n.cells.getD (n.offsets.getD s 0) default :=
    getD_append_left _ _ _ hjlt
  constructor
  · intro o ho
    rw [internalNode.insertCell]
    dsimp only
    rw [hoffraw, hi', hj', hci, hcj]
    by_cases hoj : o = n.offsets.getD s 0
    · rw [if_pos hoj, hoj]
      rw [getD_set_self _ _ _ (by
        simp only [List.length_set, List.length_append, List.length_cons,
          List.length_nil]
        omega)]
    · rw [if_neg hoj]
      rw [getD_set_ne _ _ _ _ (fun he => hoj he.symm)]
      rw [getD_set_ne _ _ _ _ (by omega)]
      exact getD_append_left _ _ _ ho
  · rw [internalNode.insertCell]
    dsimp only
    rw [hoffraw, hi', hj', hci, hcj]
    rw [getD_set_ne _ _ _ _ (by omega)]
    rw [getD_set_self _ _ _ (by
      simp only [List.length_append, List.length_cons, List.length_nil]
      omega)]

theorem internalSlotKeys_getD (n : internalNode) (t : Nat)
    (h : t < n.offsets.length) :
    (internalSlotKeys n).getD t 0 = n.cellKey (n.offsets.getD t 0) := by
  unfold internalSlotKeys internalSlotCells
  rw [getD_map_nat _ _ _ (by simp only [List.length_map]; exact h)]
  rw [getD_map_lt _ _ _ h]
  simp only [show (default : Nat) = 0 from rfl]
  rfl

theorem internalSlotKeys_length (n : internalNode) :
    (internalSlotKeys n).length = n.offsets.length := by
  simp [internalSlotKeys, internalSlotCells]

theorem internalSlotKeys_getElem (n : internalNode) (t : Nat)
    (h : t < (internalSlotKeys n).length) :
    (internalSlotKeys n)[t] = n.cellKey (n.offsets.getD t 0) := by
  rw [← List.getD_eq_getElem _ _ h]
  exact internalSlotKeys_getD n t (by rw [← internalSlotKeys_length n]; exact h)

/-- Inserting a strictly-in-between element at its insertion point
preserves strict slot-key order. -/
theorem pairwise_lt_insert (K : List Nat) (s x : Nat)
    (hsK : List.Pairwise (fun a b => a < b) K)
    (hlo : ∀ y ∈ K.take s, y < x) (hhi : ∀ y ∈ K.drop s, x < y) :
    List.Pairwise (fun a b => a < b) (K.take s ++ x :: K.drop s) := by
  rw [List.pairwise_append]
  refine ⟨hsK.sublist (List.take_sublist s K), ?_, ?_⟩
  · rw [List.pairwise_cons]
    exact ⟨hhi, hsK.sublist (List.drop_sublist s K)⟩
  · intro a ha b hb
    rcases List.mem_cons.mp hb with rfl | hb
    · exact hlo a ha
    · exact lt_trans (hlo a ha) (hhi b hb)

/-- C10 (implicit behavior of `internalNode.insertCell`): for an
insertion slot `s < len(offsets)`, the new key lands at slot `s` and
key order is preserved when `s` is the lower-bound insertion point from
`findCellOffsetByKey`, but the child pointers are exchanged: the cell
at slot `s` carries the child file-offset previously held by the cell
now at slot `s + 1`, and that cell carries the argument file-offset. -/
theorem C10_internal_insert_swap (n : internalNode) (s key fo : Nat)
    (hs : s < n.offsets.length)
    (hb : ∀ o ∈ n.offsets, o < n.cells.length)
    (hsort : List.Pairwise (fun a b => a < b) (internalSlotKeys n))
    (hlo : ∀ j, j < s → n.cellKey (n.offsets.getD j 0) < key)
    (hhi : ∀ j, j < n.offsets.length → s ≤ j →
      key < n.cellKey (n.offsets.getD j 0)) :
    (n.insertCell s key fo).offsets =
      n.offsets.take s ++ n.cells.length :: n.offsets.drop s ∧
    ((n.insertCell s key fo).cells.getD
      ((n.insertCell s key fo).offsets.getD s 0) default).key = key ∧
    ((n.insertCell s key fo).cells.getD
      ((n.insertCell s key fo).offsets.getD s 0) default).fileOffset =
      (n.cells.getD (n.offsets.getD s 0) default).fileOffset ∧
    ((n.insertCell s key fo).cells.getD
      ((n.insertCell s key fo).offsets.getD (s + 1) 0) default).key =
      (n.cells.getD (n.offsets.getD s 0) default).key ∧
    ((n.insertCell s key fo).cells.getD
      ((n.insertCell s key fo).offsets.getD (s + 1) 0) default).fileOffset =
      fo ∧
    List.Pairwise (fun a b => a < b)
      (internalSlotKeys (n.insertCell s key fo)) := by
  have hcells := insertCell_cells_getD n s key fo hs hb
  have hgs := insertCell_offsets_getD_s n s key fo hs
  have hgs1 := insertCell_offsets_getD_s1 n s key fo hs
  have hjmem : n.offsets.getD s 0 ∈ n.offsets := by
    rw [List.getD_eq_getElem _ _ hs]
    exact List.getElem_mem _
  have hjlt := hb _ hjmem
  refine ⟨insertCell_offsets n s key fo hs, ?_, ?_, ?_, ?_, ?_⟩
  · rw [hgs, hcells.2]
  · rw [hgs, hcells.2]
  · rw [hgs1, hcells.1 _ hjlt, if_pos rfl]
  · rw [hgs1, hcells.1 _ hjlt, if_pos rfl]
  · have hkeysraw : internalSlotKeys (n.insertCell s key fo) =
        ((n.insertCell s key fo).offsets).map
          (fun o => ((n.insertCell s key fo).cells.getD o default).key) := by
      unfold internalSlotKeys internalSlotCells
      rw [List.map_map]
      rfl
    have hKn : internalSlotKeys n =
        n.offsets.map (fun o => (n.cells.getD o default).key) := by
      unfold internalSlotKeys internalSlotCells
      rw [List.map_map]
      rfl
    have hpres : ∀ o ∈ n.offsets,
        ((n.insertCell s key fo).cells.getD o default).key =
        (n.cells.getD o default).key := by
      intro o ho
      rw [hcells.1 o (hb o ho)]
      by_cases h : o = n.offsets.getD s 0
      · rw [if_pos h]
      · rw [if_neg h]
    rw [hkeysraw, insertCell_offsets n s key fo hs]
    rw [List.map_append, List.map_cons]
    rw [show ((n.insertCell s key fo).cells.getD n.cells.length default).key =
      key from by rw [hcells.2]]
    rw [List.map_congr_left (fun o ho => hpres o (List.mem_of_mem_take ho))]
    rw [List.map_congr_left (fun o ho => hpres o (List.mem_of_mem_drop ho))]
    rw [List.map_take, List.map_drop]
    rw [← hKn]
    apply pairwise_lt_insert _ _ _ hsort
    · intro y hy
      obtain ⟨t, ht, hgt⟩ := List.mem_iff_getElem.mp hy
      have hts : t < s := by
        simp only [List.length_take] at ht
        omega
      have htlen : t < (internalSlotKeys n).length := by
        simp only [List.length_take, internalSlotKeys_length] at ht ⊢
        omega
      rw [← hgt, List.getElem_take, internalSlotKeys_getElem n t htlen]
      exact hlo t hts
    · intro y hy
      obtain ⟨t, ht, hgt⟩ := List.mem_iff_getElem.mp hy
      have htlen : s + t < (internalSlotKeys n).length := by
        simp only [List.length_drop, internalSlotKeys_length] at ht ⊢
        omega
      have htos : s + t < n.offsets.length := by
        rw [← internalSlotKeys_length n]
        exact htlen
      rw [← hgt, List.getElem_drop, internalSlotKeys_getElem n (s + t) htlen]
      exact hhi (s + t) htos (by omega)

/-- Witness for C10: inserting key 7 with child pointer 777 at slot 1
of the concrete two-cell internal node. -/
theorem C10_internal_insert_swap_witness :
    (exInternal.insertCell 1 7 777).offsets =
      exInternal.offsets.take 1 ++
        exInternal.cells.length :: exInternal.offsets.drop 1 ∧
    ((exInternal.insertCell 1 7 777).cells.getD
      ((exInternal.insertCell 1 7 777).offsets.getD 1 0) default).key = 7 ∧
    ((exInternal.insertCell 1 7 777).cells.getD
      ((exInternal.insertCell 1 7 777).offsets.getD 1 0) default).fileOffset =
      (exInternal.cells.getD (exInternal.offsets.getD 1 0) default).fileOffset ∧
    ((exInternal.insertCell 1 7 777).cells.getD
      ((exInternal.insertCell 1 7 777).offsets.getD (1 + 1) 0) default).key =
      (exInternal.cells.getD (exInternal.offsets.getD 1 0) default).key ∧
    ((exInternal.insertCell 1 7 777).cells.getD
      ((exInternal.insertCell 1 7 777).offsets.getD (1 + 1) 0) default).fileOffset =
      777 ∧
    List.Pairwise (fun a b => a < b)
      (internalSlotKeys (exInternal.insertCell 1 7 777)) :=
  C10_internal_insert_swap exInternal 1 7 777 (by decide) (by decide)
    (by decide) (by decide) (by decide)

end Mkdb
